import Mathlib

/-!
LightHost: the ordered plugin chain of `Source/IconMenu.cpp`.

A shallow embedding of the chain manager of `IconMenu.cpp`: the settings
store addressed through `getKey`, the closest-greater-than-cursor scan
`getNextPluginOlderThanTime`, the sorted view `getTimeSortedList`, the graph
rebuild `loadActivePlugins`, the state snapshots and the menu actions
(delete, bypass, move up, move down), followed by the properties of the
chain proved about them.
-/

namespace LightHost

/-! ## Data model -/

/-- The fields of a JUCE plugin description that `getKey` reads. A default
constructed description has three empty strings. -/
structure PluginDescription where
  name : String
  version : String
  pluginFormatName : String
deriving DecidableEq, Repr

instance : Inhabited PluginDescription := ⟨⟨"", "", ""⟩⟩

/-- A value kept by the settings store. The store keeps text; an integer or a
boolean written with `setValue` is kept as its decimal text (a boolean as 1 or
0) and read back with `atoi` or `getBoolValue`, and a plugin state is kept as
the base64 text of its bytes. `int n` stands for the decimal text of `n`,
`base64 b` for the base64 text of the bytes `b`. -/
inductive Value where
  | int (n : Int)
  | base64 (b : List Nat)
deriving DecidableEq, Repr

/-- The user settings (`getAppProperties().getUserSettings()`): a string keyed
store; `none` is an absent key. -/
abbrev PropertySet := String → Option Value

/-- The call `settings->setValue(key, v)`. -/
def setValue (s : PropertySet) (key : String) (v : Value) : PropertySet :=
  fun k => if k = key then some v else s k

/-- The call `settings->removeValue(key)`. -/
def removeValue (s : PropertySet) (key : String) : PropertySet :=
  fun k => if k = key then none else s k

/-- The expression `atoi(settings->getValue(key))`: an absent key reads as the
empty text, whose `atoi` is 0; a value that is not the text of an integer
reads as 0. -/
def atoi (s : PropertySet) (key : String) : Int :=
  match s key with
  | some (Value.int n) => n
  | _ => 0

/-- The call `settings->getBoolValue(key, false)`: the stored integer is non-zero;
an absent key gives the default `false`. -/
def getBoolValue (s : PropertySet) (key : String) : Bool :=
  match s key with
  | some (Value.int n) => n != 0
  | _ => false

/-- The value `setValue(key, b)` stores for a boolean. -/
def boolValue (b : Bool) : Value := Value.int (if b then 1 else 0)

/-- JUCE `String::toLowerCase`, on the letters A to Z. -/
def toLowerCase (s : String) : String := ⟨s.data.map Char.toLower⟩

/-- JUCE `String::equalsIgnoreCase`: equality up to letter case (modelled on
the letters A to Z). -/
def equalsIgnoreCase (a b : String) : Bool :=
  (toLowerCase a).data == (toLowerCase b).data

/-- The key builder of `IconMenu::getKey`. -/
def getKey (type : String) (plugin : PluginDescription) : String :=
  "plugin-" ++ toLowerCase type ++ "-" ++ plugin.name ++ plugin.version ++ plugin.pluginFormatName

/-- The constant of limits.h for a 32 bit int. -/
def INT_MAX : Int := 2147483647

/-- C `abs` on int. In `getNextPluginOlderThanTime` it is only evaluated on
`timeStatic - pluginTime` with `0 <= timeStatic < pluginTime`, which cannot
overflow. -/
def abs (x : Int) : Int := if x < 0 then -x else x

/-- The loop body of `getNextPluginOlderThanTime`; the accumulator is
`(diff, closest, time)`. -/
def nextStep (s : PropertySet) (timeStatic : Int)
    (acc : Int × PluginDescription × Int) (plugin : PluginDescription) :
    Int × PluginDescription × Int :=
  let pluginTime := atoi s (getKey "order" plugin)
  if pluginTime > timeStatic ∧ abs (timeStatic - pluginTime) < acc.1 then
    (abs (timeStatic - pluginTime), plugin, pluginTime)
  else acc

/-- The scan of `IconMenu::getNextPluginOlderThanTime(int &time)`: returns the
description found and the new value of the cursor `time`. -/
def getNextPluginOlderThanTime (s : PropertySet) (active : List PluginDescription)
    (time : Int) : PluginDescription × Int :=
  (active.foldl (nextStep s time) (INT_MAX, default, time)).2

/-- The loop of `getTimeSortedList`: `n` more calls from cursor `time`. -/
def timeSortedFrom (s : PropertySet) (active : List PluginDescription) :
    Nat → Int → List PluginDescription
  | 0, _ => []
  | n + 1, time =>
    let r := getNextPluginOlderThanTime s active time
    r.1 :: timeSortedFrom s active n r.2

/-- The list of `IconMenu::getTimeSortedList`: one call of
`getNextPluginOlderThanTime` per active plugin, from cursor 0. -/
def getTimeSortedList (s : PropertySet) (active : List PluginDescription) :
    List PluginDescription :=
  timeSortedFrom s active active.length 0

/-! ## The audio graph -/

/-- A node of the audio processor graph: its id, the plugin it hosts (`none`
for the two audio device nodes) and the internal state its processor reports
through `getStateInformation`. -/
structure Node where
  nodeID : Nat
  plugin : Option PluginDescription
  state : List Nat
deriving DecidableEq, Repr

/-- A connection `{ { source, sourceChannel }, { destination, destinationChannel } }`. -/
structure Connection where
  source : Nat
  sourceChannel : Nat
  destination : Nat
  destinationChannel : Nat
deriving DecidableEq, Repr

/-- The graph as the nodes and connections added to it since `graph.clear()`. -/
structure AudioProcessorGraph where
  nodes : List Node
  connections : List Connection
deriving DecidableEq, Repr

/-- The application object: the user settings, the active plugin list, the
graph of live instances and the plugin format manager. `formatManager p` tells
whether `formatManager.createPluginInstance(p, ...)` yields an instance
(`true`) or the null pointer (`false`), as it does for a description no
plugin format can load. -/
structure IconMenu where
  settings : PropertySet
  activePluginList : List PluginDescription
  graph : AudioProcessorGraph
  formatManager : PluginDescription → Bool

/-- The node id `loadActivePlugins` gives the audio input node. -/
def INPUT : Nat := 1000000

/-- The node id of the audio output node. -/
def OUTPUT : Nat := INPUT + 1

def CHANNEL_ONE : Nat := 0

def CHANNEL_TWO : Nat := 1

/-- The call `graph.addNode(processor, NodeID(id))`. -/
def addNode (g : AudioProcessorGraph) (n : Node) : AudioProcessorGraph :=
  { g with nodes := g.nodes ++ [n] }

/-- The call `graph.addConnection(c)`. -/
def addConnection (g : AudioProcessorGraph) (c : Connection) : AudioProcessorGraph :=
  { g with connections := g.connections ++ [c] }

/-- The call `graph.getNodeForId(NodeID(id))`; `none` is the null pointer. -/
def getNodeForId (g : AudioProcessorGraph) (id : Nat) : Option Node :=
  g.nodes.find? (fun n => n.nodeID == id)

/-- The two `addConnection` calls that link `a` to `b` on both channels. -/
def connectStereo (g : AudioProcessorGraph) (a b : Nat) : AudioProcessorGraph :=
  addConnection (addConnection g ⟨a, CHANNEL_ONE, b, CHANNEL_ONE⟩) ⟨a, CHANNEL_TWO, b, CHANNEL_TWO⟩

/-- The bytes `fromBase64Encoding(settings->getValue(key))` hands to
`setStateInformation`: empty when the key is absent. -/
def savedState (s : PropertySet) (key : String) : List Nat :=
  match s key with
  | some (Value.base64 b) => b
  | _ => []

/-- The local variables of the loop of `loadActivePlugins`. -/
structure LoadState where
  graph : AudioProcessorGraph
  pluginTime : Int
  lastId : Nat
  hasInputConnected : Bool

/-- One iteration of the loop of `loadActivePlugins`, for node id `i`. The
instance `createPluginInstance` returns is used without a null check
(`instance->setStateInformation`), so a description the format manager cannot
instantiate ends the program (`none`). -/
def loadStep (formatManager : PluginDescription → Bool) (s : PropertySet)
    (active : List PluginDescription) (i : Nat) (st : LoadState) : Option LoadState :=
  let r := getNextPluginOlderThanTime s active st.pluginTime
  let plugin := r.1
  if !formatManager plugin then none
  else
    let g := addNode st.graph ⟨i, some plugin, savedState s (getKey "state" plugin)⟩
    let bypass := getBoolValue s (getKey "bypass" plugin)
    if (!st.hasInputConnected) && (!bypass) then
      some ⟨connectStereo g INPUT i, r.2, i, true⟩
    else if !bypass then
      some ⟨connectStereo g st.lastId i, r.2, i, st.hasInputConnected⟩
    else
      some ⟨g, r.2, st.lastId, st.hasInputConnected⟩

/-- The loop `for (int i = 1; i <= getNumTypes(); i++)`: `k` more iterations from `i`. -/
def loadLoop (formatManager : PluginDescription → Bool) (s : PropertySet)
    (active : List PluginDescription) : Nat → Nat → LoadState → Option LoadState
  | 0, _, st => some st
  | k + 1, i, st =>
    match loadStep formatManager s active i st with
    | none => none
    | some st' => loadLoop formatManager s active k (i + 1) st'

/-- The rebuild of `IconMenu::loadActivePlugins`; `none` when the loop
dereferences a null instance. -/
def loadActivePlugins (im : IconMenu) : Option IconMenu :=
  let g0 : AudioProcessorGraph :=
    addNode (addNode ⟨[], []⟩ ⟨INPUT, none, []⟩) ⟨OUTPUT, none, []⟩
  let g1 := if im.activePluginList.length = 0 then connectStereo g0 INPUT OUTPUT else g0
  match loadLoop im.formatManager im.settings im.activePluginList im.activePluginList.length 1
      ⟨g1, 0, 0, false⟩ with
  | none => none
  | some st =>
    let g2 := if st.lastId > 0 then connectStereo st.graph st.lastId OUTPUT else st.graph
    some { im with graph := g2 }

/-! ## State snapshots -/

/-- The loop of `savePluginStates` over `list[i]`, `i = 0, 1, ...`: it stops at
the first `i` for which the graph has no node `i + 1`. `list` has one entry per
active plugin, so the index loop visits the entries of `list` in turn. -/
def saveStatesLoop (g : AudioProcessorGraph) :
    List PluginDescription → Nat → PropertySet → PropertySet
  | [], _, s => s
  | p :: rest, i, s =>
    match getNodeForId g (i + 1) with
    | none => s
    | some node =>
      saveStatesLoop g rest (i + 1) (setValue s (getKey "state" p) (Value.base64 node.state))

/-- The snapshot of `IconMenu::savePluginStates`. -/
def savePluginStates (im : IconMenu) : IconMenu :=
  { im with settings :=
      saveStatesLoop im.graph (getTimeSortedList im.settings im.activePluginList) 0 im.settings }

/-- The purge of `IconMenu::deletePluginStates`: the state key of every entry
of the time sorted list is removed. -/
def deletePluginStates (im : IconMenu) : IconMenu :=
  let list := getTimeSortedList im.settings im.activePluginList
  { im with settings := list.foldl (fun s p => removeValue s (getKey "state" p)) im.settings }

/-! ## Menu actions (`menuInvocationCallback`) -/

/-- The search loop of the delete branch, `for (int i = 0; getNumTypes(); i++)`:
the first active type whose order key equals `key` ignoring case. The loop has
no upper bound on `i`: without a match it reads past the list (`none`). -/
def findTypeToRemove (active : List PluginDescription) (key : String) :
    Option PluginDescription :=
  if active.length = 0 then some default
  else active.find? (fun t => equalsIgnoreCase key (getKey "order" t))

/-- The catalog call `activePluginList.removeType(type)`: the entries that
describe the plugin `type` leave the list. -/
def removeType (active : List PluginDescription) (type : PluginDescription) :
    List PluginDescription :=
  active.filter (fun t => t != type)

/-- The delete branch, `index = id - INDEX_DELETE`. An index outside the time
sorted list is an out of bounds read (`none`), and so is a rebuild that
dereferences a null instance. -/
def deleteBranch (im : IconMenu) (index : Nat) : Option IconMenu :=
  let im1 := deletePluginStates im
  let timeSorted := getTimeSortedList im1.settings im1.activePluginList
  match timeSorted[index]? with
  | none => none
  | some plug =>
    let key := getKey "order" plug
    match findTypeToRemove im1.activePluginList key with
    | none => none
    | some typeToRemove =>
      let s1 := removeValue im1.settings key
      let s2 := removeValue s1 (getKey "bypass" plug)
      loadActivePlugins (savePluginStates
        { im1 with settings := s2,
                   activePluginList := removeType im1.activePluginList typeToRemove })

/-- The bypass branch, `index = id - INDEX_BYPASS`. -/
def bypassBranch (im : IconMenu) (index : Nat) : Option IconMenu :=
  match (getTimeSortedList im.settings im.activePluginList)[index]? with
  | none => none
  | some plug =>
    let key := getKey "bypass" plug
    let bypassed := getBoolValue im.settings key
    loadActivePlugins (savePluginStates
      { im with settings := setValue im.settings key (boolValue (!bypassed)) })

/-- The loop of the move up branch: `k` more iterations from index `i`.
`timeSorted[i-1]` at `i = 0` is an out of bounds read (`none`). -/
def moveUpLoop (timeSorted : List PluginDescription) (toMove : PluginDescription) :
    Nat → Nat → PropertySet → Option PropertySet
  | 0, _, s => some s
  | k + 1, i, s =>
    match timeSorted[i]? with
    | none => some s
    | some p =>
      let move := equalsIgnoreCase (getKey "move" toMove) (getKey "move" p)
      let s1 := setValue s (getKey "order" p) (Value.int (if move then (i : Int) else i + 1))
      if move then
        if i = 0 then none
        else
          match timeSorted[i - 1]? with
          | none => none
          | some q =>
            moveUpLoop timeSorted toMove k (i + 1) (setValue s1 (getKey "order" q) (Value.int (i + 1)))
      else moveUpLoop timeSorted toMove k (i + 1) s1

/-- The move up branch, `index = id - INDEX_MOVE_UP`. -/
def moveUpBranch (im : IconMenu) (index : Nat) : Option IconMenu :=
  let im1 := savePluginStates im
  let timeSorted := getTimeSortedList im1.settings im1.activePluginList
  match timeSorted[index]? with
  | none => none
  | some toMove =>
    match moveUpLoop timeSorted toMove timeSorted.length 0 im1.settings with
    | none => none
    | some s => loadActivePlugins { im1 with settings := s }

/-- The loop of the move down branch: `k` more iterations from index `i`; the
iteration that moves also skips the next index. Reading `timeSorted[i + 1]`
past the last entry is an out of bounds read (`none`). -/
def moveDownLoop (timeSorted : List PluginDescription) (toMove : PluginDescription) :
    Nat → Nat → PropertySet → Option PropertySet
  | 0, _, s => some s
  | k + 1, i, s =>
    match timeSorted[i]? with
    | none => some s
    | some p =>
      let move := equalsIgnoreCase (getKey "move" toMove) (getKey "move" p)
      let s1 := setValue s (getKey "order" p) (Value.int (if move then (i : Int) + 2 else i + 1))
      if move then
        match timeSorted[i + 1]? with
        | none => none
        | some q =>
          moveDownLoop timeSorted toMove k (i + 2) (setValue s1 (getKey "order" q) (Value.int (i + 1)))
      else moveDownLoop timeSorted toMove k (i + 1) s1

/-- The move down branch, `index = id - INDEX_MOVE_DOWN`. -/
def moveDownBranch (im : IconMenu) (index : Nat) : Option IconMenu :=
  let im1 := savePluginStates im
  let timeSorted := getTimeSortedList im1.settings im1.activePluginList
  match timeSorted[index]? with
  | none => none
  | some toMove =>
    match moveDownLoop timeSorted toMove timeSorted.length 0 im1.settings with
    | none => none
    | some s => loadActivePlugins { im1 with settings := s }

/-! ## Reading the store -/

/-- The order value the store holds for a plugin, as the scan reads it. -/
def storedOrder (s : PropertySet) (p : PluginDescription) : Int :=
  atoi s (getKey "order" p)

/-- The bypass flag the store holds for a plugin, as the rebuild reads it. -/
def storedBypass (s : PropertySet) (p : PluginDescription) : Bool :=
  getBoolValue s (getKey "bypass" p)

/-! ## The time sorted list is the sorted active list -/

/-- The active plugins whose order value is above the cursor. -/
def above (s : PropertySet) (active : List PluginDescription) (t : Int) :
    List PluginDescription :=
  active.filter (fun p => decide (storedOrder s p > t))

/-- A well ordered chain: the stored order values of the active plugins are
pairwise distinct ints above 0, and the least of them is below `INT_MAX`. -/
def WellOrdered (s : PropertySet) (active : List PluginDescription) : Prop :=
  (active.map (storedOrder s)).Nodup ∧
  (∀ p ∈ active, 0 < storedOrder s p ∧ storedOrder s p ≤ INT_MAX) ∧
  (active = [] ∨ ∃ q ∈ active, storedOrder s q < INT_MAX)

/-! ## The rebuilt graph -/

/-- The time sorted chain of the application. -/
def chainOf (im : IconMenu) : List PluginDescription :=
  getTimeSortedList im.settings im.activePluginList

/-- The bypass flags of the chain entries, in chain order. -/
def flagsOf (im : IconMenu) : List Bool :=
  (chainOf im).map (storedBypass im.settings)

/-- The positions, counted from `i`, of the flags that are `false`: with
`i = 1` the 1-based chain positions of the entries that are not bypassed, in
ascending order. -/
def unbypassedFrom : Nat → List Bool → List Nat
  | _, [] => []
  | i, b :: bs => if b then unbypassedFrom (i + 1) bs else i :: unbypassedFrom (i + 1) bs

/-- The connections that link each element of a sequence of node ids to the
next one, on channel 0 and on channel 1. -/
def stereoLinks : List Nat → List Connection
  | a :: b :: rest =>
    ⟨a, CHANNEL_ONE, b, CHANNEL_ONE⟩ :: ⟨a, CHANNEL_TWO, b, CHANNEL_TWO⟩ :: stereoLinks (b :: rest)
  | _ => []

/-- One node per chain entry, with ids counted from `i`, each seeded with the
state saved for its plugin. -/
def pluginNodes (s : PropertySet) : Nat → List PluginDescription → List Node
  | _, [] => []
  | i, p :: ps => ⟨i, some p, savedState s (getKey "state" p)⟩ :: pluginNodes s (i + 1) ps

/-- The previous stage the loop of `loadActivePlugins` links the next stage
that is not bypassed to. -/
def prevOf (st : LoadState) : Nat := if st.hasInputConnected then st.lastId else INPUT

/-! ## Keys -/

/-- The text `getKey` appends to its prefix: name, version and format. -/
def identText (p : PluginDescription) : String :=
  p.name ++ p.version ++ p.pluginFormatName

/-! ## The move loops renumber the chain -/

/-- The order value the move up loop leaves for chain position `j` when the
entry at `idx` moves: the whole chain is numbered from 1, with the entry at
`idx` and its predecessor exchanged. -/
def upTarget (idx j : Nat) : Int :=
  if j = idx then (idx : Int) else if j + 1 = idx then (idx : Int) + 1 else (j : Int) + 1

/-- The order value the move down loop leaves for chain position `j` when
the entry at `idx` moves. -/
def downTarget (idx j : Nat) : Int :=
  if j = idx then (idx : Int) + 2 else if j = idx + 1 then (idx : Int) + 1 else (j : Int) + 1

/-! ## Chains given by their stored positions -/

/-- The order keys of the active plugins are pairwise distinct also when
letter case is ignored. -/
def CaseDistinct (active : List PluginDescription) : Prop :=
  (active.map (fun p => toLowerCase (getKey "order" p))).Nodup

instance (active : List PluginDescription) : Decidable (CaseDistinct active) := by
  unfold CaseDistinct; infer_instance

/-- The list with the entries at positions `i - 1` and `i` exchanged. -/
def swapAdjacent (l : List PluginDescription) (i : Nat) : List PluginDescription :=
  match l[i - 1]?, l[i]? with
  | some x, some y => (l.set (i - 1) y).set i x
  | _, _ => l

/-- The index map of `swapAdjacent`. -/
def swapIndex (i j : Nat) : Nat := if j = i then i - 1 else if j = i - 1 then i else j

/-! ## Sample data -/

namespace Sample

/-- Three VST plugins of name x, y and z, version 1. -/
def x : PluginDescription := ⟨"x", "1", "VST"⟩

def y : PluginDescription := ⟨"y", "1", "VST"⟩

def z : PluginDescription := ⟨"z", "1", "VST"⟩

/-- Two VST plugins whose names, and so keys, differ in letter case only. -/
def a : PluginDescription := ⟨"a", "1", "VST"⟩

def A : PluginDescription := ⟨"A", "1", "VST"⟩

/-- The empty settings file. -/
def noSettings : PropertySet := fun _ => none

def withOrder (s : PropertySet) (p : PluginDescription) (n : Int) : PropertySet :=
  setValue s (getKey "order" p) (Value.int n)

def withBypass (s : PropertySet) (p : PluginDescription) (b : Bool) : PropertySet :=
  setValue s (getKey "bypass" p) (boolValue b)

/-- A format manager with the VST format only: it instantiates the
descriptions of format VST and returns the null pointer for any other, so for
the default constructed description. -/
def vstOnly (p : PluginDescription) : Bool := p.pluginFormatName == "VST"

/-- The application before the constructor builds the graph. -/
def fresh (s : PropertySet) (active : List PluginDescription) : IconMenu :=
  ⟨s, active, ⟨[], []⟩, vstOnly⟩

/-- The application as the constructor leaves it: the graph is built from
the settings and the active list. On each sample below the rebuild of the
constructor completes (`start_completes`). -/
def start (s : PropertySet) (active : List PluginDescription) : IconMenu :=
  (loadActivePlugins (fresh s active)).getD (fresh s active)

/-- The settings after x, y and z were added at times 100, 200 and 300. -/
def threeSettings : PropertySet :=
  withOrder (withOrder (withOrder noSettings x 100) y 200) z 300

/-- Three plugins added at times 100, 200 and 300; the active list holds
them in another order. -/
def three : IconMenu := start threeSettings [y, z, x]

/-- The chain x, y, z with y bypassed. -/
def threeBypassed : IconMenu := start (withBypass threeSettings y true) [y, z, x]

/-- The settings after x and y were added at times 100 and 200. -/
def twoSettings : PropertySet := withOrder (withOrder noSettings x 100) y 200

/-- Two plugins added at times 100 and 200. -/
def two : IconMenu := start twoSettings [x, y]

/-- One plugin. -/
def one : IconMenu := start (withOrder noSettings x 100) [x]

/-- One plugin, bypassed. -/
def oneBypassed : IconMenu :=
  start (withBypass (withOrder noSettings x 100) x true) [x]

/-- Two plugins added within the same second. -/
def tied : IconMenu :=
  fresh (withOrder (withOrder noSettings x 100) y 100) [x, y]

/-- The settings of a chain with two keys that differ in letter case only. -/
def caseSettings : PropertySet :=
  withOrder (withOrder (withOrder noSettings x 1) a 2) A 3

/-- The chain x, a, A: the keys of a and A differ in letter case only. -/
def caseChain : IconMenu := start caseSettings [x, a, A]

/-- The settings of the chain a, A. -/
def pairSettings : PropertySet := withOrder (withOrder noSettings a 1) A 2

/-- The chain a, A: two keys that differ in letter case only. -/
def casePair : IconMenu := start pairSettings [a, A]

/-- Two live instances: the one of x reports the state 1, 1 and the one of y
the state 2, 2. -/
def live : IconMenu :=
  ⟨twoSettings, [x, y],
    ⟨[⟨INPUT, none, []⟩, ⟨OUTPUT, none, []⟩, ⟨1, some x, [1, 1]⟩, ⟨2, some y, [2, 2]⟩],
      [⟨INPUT, 0, 1, 0⟩, ⟨INPUT, 1, 1, 1⟩, ⟨1, 0, 2, 0⟩, ⟨1, 1, 2, 1⟩,
        ⟨2, 0, OUTPUT, 0⟩, ⟨2, 1, OUTPUT, 1⟩]⟩,
    vstOnly⟩

end Sample

open Sample

/-! ## The scan picks the closest greater order value -/

theorem abs_sub_of_lt {t v : Int} (h : v > t) : abs (t - v) = v - t := by
  unfold abs
  split <;> omega

theorem foldl_nextStep_le (s : PropertySet) (t : Int) (l : List PluginDescription) :
    ∀ acc, (l.foldl (nextStep s t) acc).1 ≤ acc.1 := by
  induction l with
  | nil => intro acc; simp
  | cons p l ih =>
    intro acc
    rw [List.foldl_cons]
    refine le_trans (ih _) ?_
    unfold nextStep
    simp only
    split
    · rename_i h; exact le_of_lt h.2
    · exact le_refl _

theorem foldl_nextStep_min (s : PropertySet) (t : Int) (l : List PluginDescription) :
    ∀ acc, ∀ q ∈ l, storedOrder s q > t →
      (l.foldl (nextStep s t) acc).1 ≤ storedOrder s q - t := by
  induction l with
  | nil => intro acc q hq; simp at hq
  | cons p l ih =>
    intro acc q hq hqt
    rw [List.foldl_cons]
    rcases List.mem_cons.mp hq with rfl | hq
    · refine le_trans (foldl_nextStep_le s t l _) ?_
      unfold nextStep
      simp only
      have hq2 : atoi s (getKey "order" q) > t := hqt
      split
      · rw [abs_sub_of_lt hq2]; exact le_refl _
      · rename_i h
        rw [abs_sub_of_lt hq2] at h
        unfold storedOrder
        have h3 : ¬ (atoi s (getKey "order" q) - t < acc.1) := fun h4 => h ⟨hq2, h4⟩
        omega
    · exact ih _ q hq hqt

theorem foldl_nextStep_cases (s : PropertySet) (t : Int) (l : List PluginDescription) :
    ∀ acc, l.foldl (nextStep s t) acc = acc ∨
      ∃ p ∈ l, storedOrder s p > t ∧
        l.foldl (nextStep s t) acc = (storedOrder s p - t, p, storedOrder s p) := by
  induction l with
  | nil => intro acc; left; rfl
  | cons p l ih =>
    intro acc
    rw [List.foldl_cons]
    rcases ih (nextStep s t acc p) with h | ⟨q, hq, hqt, h⟩
    · rw [h]
      unfold nextStep
      simp only
      split
      · rename_i hc
        right
        refine ⟨p, List.mem_cons_self _ _, hc.1, ?_⟩
        rw [abs_sub_of_lt hc.1]
        rfl
      · left; rfl
    · right
      exact ⟨q, List.mem_cons_of_mem _ hq, hqt, h⟩

/-- When some active plugin has an order value above the cursor and within
reach of it, the scan returns an active plugin of least order value above the
cursor, and moves the cursor to that value. -/
theorem getNext_spec (s : PropertySet) (active : List PluginDescription) (t : Int)
    (h : ∃ q ∈ active, storedOrder s q > t ∧ storedOrder s q - t < INT_MAX) :
    ∃ p ∈ active, getNextPluginOlderThanTime s active t = (p, storedOrder s p) ∧
      storedOrder s p > t ∧ ∀ q ∈ active, storedOrder s q > t → storedOrder s p ≤ storedOrder s q := by
  obtain ⟨q, hq, hqt, hqd⟩ := h
  have hmin := foldl_nextStep_min s t active (INT_MAX, default, t)
  rcases foldl_nextStep_cases s t active (INT_MAX, default, t) with h | ⟨p, hp, hpt, h⟩
  · have := hmin q hq hqt
    rw [h] at this
    simp only at this
    omega
  · refine ⟨p, hp, ?_, hpt, ?_⟩
    · unfold getNextPluginOlderThanTime
      rw [h]
    · intro r hr hrt
      have := hmin r hr hrt
      rw [h] at this
      simp only at this
      omega

/-- When no active plugin has an order value above the cursor and within reach
of it, the scan returns the default constructed description and leaves the
cursor where it was. -/
theorem getNext_none (s : PropertySet) (active : List PluginDescription) (t : Int)
    (h : ∀ q ∈ active, ¬ (storedOrder s q > t ∧ storedOrder s q - t < INT_MAX)) :
    getNextPluginOlderThanTime s active t = (default, t) := by
  have key : ∀ (l : List PluginDescription) (acc : Int × PluginDescription × Int),
      acc.1 ≤ INT_MAX →
      (∀ q ∈ l, ¬ (storedOrder s q > t ∧ storedOrder s q - t < INT_MAX)) →
      l.foldl (nextStep s t) acc = acc := by
    intro l
    induction l with
    | nil => intro acc _ _; rfl
    | cons a l ih =>
      intro acc hacc hl
      rw [List.foldl_cons]
      have hstep : nextStep s t acc a = acc := by
        unfold nextStep
        simp only
        split
        · rename_i hc
          exfalso
          have h2 := hc.2
          rw [abs_sub_of_lt hc.1] at h2
          exact hl a (List.mem_cons_self _ _) ⟨hc.1, lt_of_lt_of_le h2 hacc⟩
        · rfl
      rw [hstep]
      exact ih acc hacc (fun q hq => hl q (List.mem_cons_of_mem _ hq))
  unfold getNextPluginOlderThanTime
  rw [key active _ (le_refl _) h]

/-! ## The time sorted list is the sorted active list -/

theorem mem_above {s : PropertySet} {active : List PluginDescription} {t : Int}
    {p : PluginDescription} : p ∈ above s active t ↔ p ∈ active ∧ storedOrder s p > t := by
  simp [above]

theorem above_erase (s : PropertySet) (active : List PluginDescription) (t : Int)
    (hnd : (active.map (storedOrder s)).Nodup) (p : PluginDescription) (hp : p ∈ active)
    (hpt : storedOrder s p > t)
    (hmin : ∀ q ∈ active, storedOrder s q > t → storedOrder s p ≤ storedOrder s q) :
    (above s active t).erase p = above s active (storedOrder s p) := by
  have hnda : active.Nodup := List.Nodup.of_map _ hnd
  have hinj := List.inj_on_of_nodup_map hnd
  have hnd2 : (above s active t).Nodup := hnda.filter _
  rw [hnd2.erase_eq_filter]
  unfold above
  rw [List.filter_filter]
  apply List.filter_congr
  intro q hq
  by_cases hqp : q = p
  · subst hqp; simp
  · have hne : storedOrder s q ≠ storedOrder s p := fun h => hqp (hinj hq hp h)
    by_cases hqt : storedOrder s q > t
    · have := hmin q hq hqt
      have h1 : storedOrder s q > storedOrder s p := lt_of_le_of_ne this (Ne.symm hne)
      simp [hqp, hqt, h1]
    · have h1 : ¬ storedOrder s q > storedOrder s p := fun h => hqt (lt_trans hpt h)
      simp [hqt, h1]

/-- From a cursor `t`, as many calls as there are active plugins above `t`
list exactly those plugins, in strictly ascending order of stored order. -/
theorem timeSortedFrom_spec (s : PropertySet) (active : List PluginDescription)
    (hnd : (active.map (storedOrder s)).Nodup)
    (hmax : ∀ p ∈ active, storedOrder s p ≤ INT_MAX) :
    ∀ (n : Nat) (t : Int), 0 ≤ t →
      (above s active t = [] ∨
        ∃ q ∈ active, storedOrder s q > t ∧ storedOrder s q - t < INT_MAX) →
      (above s active t).length = n →
      (timeSortedFrom s active n t).Perm (above s active t) ∧
      (timeSortedFrom s active n t).Pairwise (fun p q => storedOrder s p < storedOrder s q) := by
  intro n
  induction n with
  | zero =>
    intro t _ _ hlen
    have : above s active t = [] := List.length_eq_zero.mp hlen
    simp [timeSortedFrom, this]
  | succ n ih =>
    intro t ht hok hlen
    have hne : above s active t ≠ [] := by
      intro h; rw [h] at hlen; simp at hlen
    have hex := hok.resolve_left hne
    obtain ⟨p, hp, hget, hpt, hmin⟩ := getNext_spec s active t hex
    have hpa : p ∈ above s active t := mem_above.mpr ⟨hp, hpt⟩
    have her := above_erase s active t hnd p hp hpt hmin
    have hlen2 : (above s active (storedOrder s p)).length = n := by
      rw [← her, List.length_erase_of_mem hpa, hlen]; rfl
    have hok2 : above s active (storedOrder s p) = [] ∨
        ∃ q ∈ active, storedOrder s q > storedOrder s p ∧
          storedOrder s q - storedOrder s p < INT_MAX := by
      by_cases h0 : above s active (storedOrder s p) = []
      · exact Or.inl h0
      · right
        obtain ⟨q, hq⟩ := List.exists_mem_of_ne_nil _ h0
        have hq2 := mem_above.mp hq
        refine ⟨q, hq2.1, hq2.2, ?_⟩
        have := hmax q hq2.1
        omega
    have ih2 := ih (storedOrder s p) (by omega) hok2 hlen2
    have hts : timeSortedFrom s active (n + 1) t =
        p :: timeSortedFrom s active n (storedOrder s p) := by
      simp [timeSortedFrom, hget]
    rw [hts]
    constructor
    · refine List.Perm.trans (List.Perm.cons p ih2.1) ?_
      rw [← her]
      exact (List.perm_cons_erase hpa).symm
    · refine List.pairwise_cons.mpr ⟨?_, ih2.2⟩
      intro q hq
      exact (mem_above.mp (ih2.1.subset hq)).2

theorem timeSorted_of_wellOrdered (s : PropertySet) (active : List PluginDescription)
    (h : WellOrdered s active) :
    (getTimeSortedList s active).Perm active ∧
    (getTimeSortedList s active).Pairwise (fun p q => storedOrder s p < storedOrder s q) := by
  obtain ⟨hnd, hrange, hmin⟩ := h
  have habove : above s active 0 = active := by
    unfold above
    apply List.filter_eq_self.mpr
    intro p hp
    simpa using (hrange p hp).1
  have hok : above s active 0 = [] ∨
      ∃ q ∈ active, storedOrder s q > 0 ∧ storedOrder s q - 0 < INT_MAX := by
    rcases hmin with h0 | ⟨q, hq, hlt⟩
    · left; rw [habove]; exact h0
    · right; exact ⟨q, hq, (hrange q hq).1, by omega⟩
  have := timeSortedFrom_spec s active hnd (fun p hp => (hrange p hp).2)
    active.length 0 (le_refl _) hok (by rw [habove])
  rw [habove] at this
  exact this

/-- Two strictly ascending lists with the same entries are equal. -/
theorem sorted_perm_unique (s : PropertySet) {l₁ l₂ : List PluginDescription}
    (hp : l₁.Perm l₂)
    (h₁ : l₁.Pairwise (fun p q => storedOrder s p < storedOrder s q))
    (h₂ : l₂.Pairwise (fun p q => storedOrder s p < storedOrder s q)) : l₁ = l₂ := by
  haveI : IsAntisymm PluginDescription (fun p q => storedOrder s p < storedOrder s q) :=
    ⟨fun a b hab hba => absurd hab (not_lt_of_gt hba)⟩
  exact List.eq_of_perm_of_sorted hp h₁ h₂

/-- C1: when the active plugins have pairwise distinct persistence keys and
pairwise distinct stored order values in 1..INT_MAX-1, getTimeSortedList
contains every active plugin exactly once (it is a duplicate free permutation
of the active list) and is strictly ascending in stored order value. -/
theorem getTimeSortedList_sorted (s : PropertySet) (active : List PluginDescription)
    (hkeys : (active.map (getKey "order")).Nodup)
    (hdistinct : (active.map (storedOrder s)).Nodup)
    (hrange : ∀ p ∈ active, 1 ≤ storedOrder s p ∧ storedOrder s p ≤ INT_MAX - 1) :
    (getTimeSortedList s active).Perm active ∧
    (getTimeSortedList s active).Nodup ∧
    (∀ p ∈ active, (getTimeSortedList s active).count p = 1) ∧
    (getTimeSortedList s active).Pairwise (fun p q => storedOrder s p < storedOrder s q) := by
  have hw : WellOrdered s active := by
    refine ⟨hdistinct, fun p hp => ⟨by have := hrange p hp; omega, by have := hrange p hp; omega⟩, ?_⟩
    cases active with
    | nil => exact Or.inl rfl
    | cons a l =>
      right
      exact ⟨a, List.mem_cons_self _ _, by have := hrange a (List.mem_cons_self _ _); omega⟩
  have h := timeSorted_of_wellOrdered s active hw
  have hnda : active.Nodup := List.Nodup.of_map _ hkeys
  have hnd : (getTimeSortedList s active).Nodup := h.1.nodup_iff.mpr hnda
  refine ⟨h.1, hnd, ?_, h.2⟩
  intro p hp
  exact List.count_eq_one_of_mem hnd (h.1.mem_iff.mpr hp)

/-! ## The rebuilt graph -/

theorem timeSortedFrom_length (s : PropertySet) (active : List PluginDescription) :
    ∀ (n : Nat) (t : Int), (timeSortedFrom s active n t).length = n := by
  intro n
  induction n with
  | zero => intro t; rfl
  | succ n ih => intro t; simp [timeSortedFrom, ih]

theorem getTimeSortedList_length (s : PropertySet) (active : List PluginDescription) :
    (getTimeSortedList s active).length = active.length :=
  timeSortedFrom_length s active _ _

theorem loadLoop_spec (fm : PluginDescription → Bool) (s : PropertySet)
    (active : List PluginDescription) :
    ∀ (k i : Nat) (st : LoadState),
      (∀ p ∈ timeSortedFrom s active k st.pluginTime, fm p = true) →
      ∃ st', loadLoop fm s active k i st = some st' ∧
        st'.graph.nodes =
          st.graph.nodes ++ pluginNodes s i (timeSortedFrom s active k st.pluginTime) ∧
        st'.graph.connections =
          st.graph.connections ++ stereoLinks (prevOf st ::
            unbypassedFrom i ((timeSortedFrom s active k st.pluginTime).map (storedBypass s))) ∧
        st'.lastId =
          (unbypassedFrom i ((timeSortedFrom s active k st.pluginTime).map
            (storedBypass s))).getLastD st.lastId := by
  intro k
  induction k with
  | zero =>
    intro i st _
    exact ⟨st, rfl, by simp [timeSortedFrom, pluginNodes, unbypassedFrom, stereoLinks]⟩
  | succ k ih =>
    intro i st hload
    simp only [timeSortedFrom, List.mem_cons, forall_eq_or_imp] at hload
    obtain ⟨hfm, hrest⟩ := hload
    simp only [timeSortedFrom, List.map_cons, pluginNodes, unbypassedFrom]
    by_cases hb : storedBypass s (getNextPluginOlderThanTime s active st.pluginTime).1 = true
    · have hb2 : getBoolValue s (getKey "bypass"
          (getNextPluginOlderThanTime s active st.pluginTime).1) = true := hb
      have hstep : loadStep fm s active i st = some
          ⟨addNode st.graph ⟨i, some (getNextPluginOlderThanTime s active st.pluginTime).1,
              savedState s (getKey "state" (getNextPluginOlderThanTime s active st.pluginTime).1)⟩,
            (getNextPluginOlderThanTime s active st.pluginTime).2, st.lastId,
            st.hasInputConnected⟩ := by
        simp [loadStep, hb2, hfm]
      obtain ⟨st', hst', h⟩ := ih (i + 1)
        ⟨addNode st.graph ⟨i, some (getNextPluginOlderThanTime s active st.pluginTime).1,
            savedState s (getKey "state" (getNextPluginOlderThanTime s active st.pluginTime).1)⟩,
          (getNextPluginOlderThanTime s active st.pluginTime).2, st.lastId,
          st.hasInputConnected⟩ hrest
      refine ⟨st', by simp only [loadLoop, hstep]; exact hst', ?_⟩
      simp only [hb, if_true]
      simp only [addNode, prevOf] at h ⊢
      refine ⟨?_, h.2.1, h.2.2⟩
      rw [h.1]; simp
    · have hb1 : storedBypass s (getNextPluginOlderThanTime s active st.pluginTime).1 = false := by
        simpa using hb
      have hb2 : getBoolValue s (getKey "bypass"
          (getNextPluginOlderThanTime s active st.pluginTime).1) = false := hb1
      have hstep : loadStep fm s active i st = some
          ⟨connectStereo (addNode st.graph ⟨i,
              some (getNextPluginOlderThanTime s active st.pluginTime).1,
              savedState s (getKey "state" (getNextPluginOlderThanTime s active st.pluginTime).1)⟩)
              (prevOf st) i,
            (getNextPluginOlderThanTime s active st.pluginTime).2, i, true⟩ := by
        unfold loadStep prevOf
        cases hh : st.hasInputConnected <;> simp [hb2, hh, hfm]
      obtain ⟨st', hst', h⟩ := ih (i + 1)
        ⟨connectStereo (addNode st.graph ⟨i,
            some (getNextPluginOlderThanTime s active st.pluginTime).1,
            savedState s (getKey "state" (getNextPluginOlderThanTime s active st.pluginTime).1)⟩)
            (prevOf st) i,
          (getNextPluginOlderThanTime s active st.pluginTime).2, i, true⟩ hrest
      refine ⟨st', by simp only [loadLoop, hstep]; exact hst', ?_⟩
      simp only [hb1, Bool.false_eq_true, if_false]
      simp only [addNode, connectStereo, addConnection, prevOf, if_true] at h ⊢
      refine ⟨?_, ?_, ?_⟩
      · rw [h.1]; simp
      · rw [h.2.1]
        cases hu : unbypassedFrom (i + 1) (List.map (storedBypass s)
            (timeSortedFrom s active k (getNextPluginOlderThanTime s active st.pluginTime).2)) <;>
          simp [stereoLinks]
      · rw [h.2.2, List.getLastD_cons]

theorem unbypassedFrom_eq_nil : ∀ (bs : List Bool) (i : Nat),
    (∀ b ∈ bs, b = true) → unbypassedFrom i bs = [] := by
  intro bs
  induction bs with
  | nil => intro i _; rfl
  | cons b bs ih =>
    intro i h
    have hb : b = true := h b (List.mem_cons_self _ _)
    subst hb
    simp only [unbypassedFrom, if_true]
    exact ih _ (fun b hb => h b (List.mem_cons_of_mem _ hb))

/-- When the format manager instantiates every chain entry the rebuild
completes; it leaves the settings, the active list and the format manager as
they were and builds the graph below. -/
theorem loadActivePlugins_spec (im : IconMenu)
    (hload : ∀ p ∈ chainOf im, im.formatManager p = true) :
    ∃ im', loadActivePlugins im = some im' ∧
      im'.settings = im.settings ∧ im'.activePluginList = im.activePluginList ∧
      im'.formatManager = im.formatManager ∧
      im'.graph.nodes =
        ⟨INPUT, none, []⟩ :: ⟨OUTPUT, none, []⟩ :: pluginNodes im.settings 1 (chainOf im) ∧
      im'.graph.connections =
        (if im.activePluginList.length = 0 then stereoLinks [INPUT, OUTPUT] else []) ++
        stereoLinks (INPUT :: unbypassedFrom 1 (flagsOf im)) ++
        (if 0 < (unbypassedFrom 1 (flagsOf im)).getLastD 0 then
          stereoLinks [(unbypassedFrom 1 (flagsOf im)).getLastD 0, OUTPUT] else []) := by
  obtain ⟨st', hst', hn, hc, hl⟩ := loadLoop_spec im.formatManager im.settings
    im.activePluginList im.activePluginList.length 1
    ⟨if im.activePluginList.length = 0 then
        connectStereo (addNode (addNode ⟨[], []⟩ ⟨INPUT, none, []⟩) ⟨OUTPUT, none, []⟩)
          INPUT OUTPUT
      else addNode (addNode ⟨[], []⟩ ⟨INPUT, none, []⟩) ⟨OUTPUT, none, []⟩, 0, 0, false⟩ hload
  simp only [prevOf, Bool.false_eq_true, if_false] at hn hc hl
  refine ⟨⟨im.settings, im.activePluginList,
    if st'.lastId > 0 then connectStereo st'.graph st'.lastId OUTPUT else st'.graph,
    im.formatManager⟩, ?_, rfl, rfl, rfl, ?_, ?_⟩
  · unfold loadActivePlugins
    simp only [hst']
  · have hnodes : ∀ (g : AudioProcessorGraph) (a b : Nat),
        (connectStereo g a b).nodes = g.nodes := fun _ _ _ => rfl
    have hn2 : st'.graph.nodes =
        ⟨INPUT, none, []⟩ :: ⟨OUTPUT, none, []⟩ :: pluginNodes im.settings 1 (chainOf im) := by
      rw [hn]
      split <;> simp [hnodes, addNode, chainOf, getTimeSortedList]
    simp only
    split
    · rw [hnodes]; exact hn2
    · exact hn2
  · have hc2 : st'.graph.connections =
        (if im.activePluginList.length = 0 then stereoLinks [INPUT, OUTPUT] else []) ++
        stereoLinks (INPUT :: unbypassedFrom 1 (flagsOf im)) := by
      rw [hc]
      split <;>
        simp [connectStereo, addConnection, addNode, stereoLinks, flagsOf, chainOf,
          getTimeSortedList]
    have hl2 : st'.lastId = (unbypassedFrom 1 (flagsOf im)).getLastD 0 := hl
    simp only
    rw [hl2]
    split
    · simp only [connectStereo, addConnection, hc2, stereoLinks, List.append_assoc,
        List.cons_append, List.nil_append]
    · simp only [hc2, List.append_nil]

/-- For every non-empty chain in which every entry is bypassed, the rebuilt
graph has no connection. -/
theorem loadActivePlugins_noConnections (im : IconMenu) (hne : im.activePluginList ≠ [])
    (hload : ∀ p ∈ chainOf im, im.formatManager p = true)
    (hall : ∀ p ∈ chainOf im, storedBypass im.settings p = true) :
    ∃ im', loadActivePlugins im = some im' ∧ im'.graph.connections = [] := by
  have hn : ¬ im.activePluginList.length = 0 := fun h => hne (List.length_eq_zero.mp h)
  have hnil : unbypassedFrom 1 (flagsOf im) = [] := by
    apply unbypassedFrom_eq_nil
    intro b hb
    obtain ⟨p, hp, rfl⟩ := List.mem_map.mp hb
    exact hall p hp
  obtain ⟨im', h1, _, _, _, _, hc⟩ := loadActivePlugins_spec im hload
  refine ⟨im', h1, ?_⟩
  rw [hc, hnil]
  simp [hn, stereoLinks]

theorem getKey_eq (type : String) (p : PluginDescription) :
    getKey type p = ("plugin-" ++ toLowerCase type ++ "-") ++ identText p := by
  simp [getKey, identText, String.append_assoc]

theorem getKey_eq_iff (type : String) (p q : PluginDescription) :
    getKey type p = getKey type q ↔ identText p = identText q := by
  rw [getKey_eq, getKey_eq]
  constructor
  · intro h
    have h2 := congrArg String.data h
    simp only [String.data_append] at h2
    exact String.ext (List.append_cancel_left h2)
  · intro h; rw [h]

theorem getKey_eq_of_eq (t₁ t₂ : String) {p q : PluginDescription}
    (h : getKey t₁ p = getKey t₁ q) : getKey t₂ p = getKey t₂ q :=
  (getKey_eq_iff t₂ p q).mpr ((getKey_eq_iff t₁ p q).mp h)

theorem lower_order : (toLowerCase "order").data = ['o', 'r', 'd', 'e', 'r'] := by decide
theorem lower_state : (toLowerCase "state").data = ['s', 't', 'a', 't', 'e'] := by decide
theorem lower_bypass : (toLowerCase "bypass").data = ['b', 'y', 'p', 'a', 's', 's'] := by decide

theorem order_ne_state (p q : PluginDescription) : getKey "order" p ≠ getKey "state" q := by
  intro h
  have h2 := congrArg String.data h
  simp only [getKey, String.data_append, lower_order, lower_state] at h2
  have h3 := congrArg (fun l => l[7]?) h2
  simp at h3

theorem order_ne_bypass (p q : PluginDescription) : getKey "order" p ≠ getKey "bypass" q := by
  intro h
  have h2 := congrArg String.data h
  simp only [getKey, String.data_append, lower_order, lower_bypass] at h2
  have h3 := congrArg (fun l => l[7]?) h2
  simp at h3

theorem bypass_ne_state (p q : PluginDescription) : getKey "bypass" p ≠ getKey "state" q := by
  intro h
  have h2 := congrArg String.data h
  simp only [getKey, String.data_append, lower_bypass, lower_state] at h2
  have h3 := congrArg (fun l => l[7]?) h2
  simp at h3

theorem equalsIgnoreCase_refl (a : String) : equalsIgnoreCase a a = true := by
  simp [equalsIgnoreCase]

/-! ## What the chain depends on -/

theorem foldl_nextStep_congr (s s' : PropertySet) (t : Int) (l : List PluginDescription)
    (h : ∀ p ∈ l, storedOrder s' p = storedOrder s p) :
    ∀ acc, l.foldl (nextStep s' t) acc = l.foldl (nextStep s t) acc := by
  induction l with
  | nil => intro acc; rfl
  | cons a l ih =>
    intro acc
    have ha : atoi s' (getKey "order" a) = atoi s (getKey "order" a) :=
      h a (List.mem_cons_self _ _)
    have hs : nextStep s' t acc a = nextStep s t acc a := by
      unfold nextStep
      rw [ha]
    rw [List.foldl_cons, List.foldl_cons, hs]
    exact ih (fun p hp => h p (List.mem_cons_of_mem _ hp)) _

/-- The time sorted list only depends on the stored order values of the
active plugins. -/
theorem getTimeSortedList_congr (s s' : PropertySet) (active : List PluginDescription)
    (h : ∀ p ∈ active, storedOrder s' p = storedOrder s p) :
    getTimeSortedList s' active = getTimeSortedList s active := by
  have hnext : ∀ t, getNextPluginOlderThanTime s' active t =
      getNextPluginOlderThanTime s active t := by
    intro t
    unfold getNextPluginOlderThanTime
    rw [foldl_nextStep_congr s s' t active h]
  have hfrom : ∀ (n : Nat) (t : Int),
      timeSortedFrom s' active n t = timeSortedFrom s active n t := by
    intro n
    induction n with
    | zero => intro t; rfl
    | succ n ih => intro t; simp [timeSortedFrom, hnext, ih]
  exact hfrom _ _

/-- The snapshot loop only writes state keys. -/
theorem saveStatesLoop_frame (g : AudioProcessorGraph) (key : String)
    (hkey : ∀ p : PluginDescription, key ≠ getKey "state" p) :
    ∀ (l : List PluginDescription) (i : Nat) (s : PropertySet),
      saveStatesLoop g l i s key = s key := by
  intro l
  induction l with
  | nil => intro i s; rfl
  | cons p l ih =>
    intro i s
    simp only [saveStatesLoop]
    cases getNodeForId g (i + 1) with
    | none => rfl
    | some node =>
      simp only
      rw [ih]
      simp [setValue, hkey p]

theorem savePluginStates_order (im : IconMenu) (p : PluginDescription) :
    (savePluginStates im).settings (getKey "order" p) = im.settings (getKey "order" p) :=
  saveStatesLoop_frame _ _ (fun q => order_ne_state p q) _ _ _

theorem savePluginStates_bypass (im : IconMenu) (p : PluginDescription) :
    (savePluginStates im).settings (getKey "bypass" p) = im.settings (getKey "bypass" p) :=
  saveStatesLoop_frame _ _ (fun q => bypass_ne_state p q) _ _ _

theorem storedOrder_congr {s s' : PropertySet} {p : PluginDescription}
    (h : s' (getKey "order" p) = s (getKey "order" p)) : storedOrder s' p = storedOrder s p := by
  unfold storedOrder atoi
  rw [h]

theorem savePluginStates_chain (im : IconMenu) : chainOf (savePluginStates im) = chainOf im := by
  unfold chainOf
  exact getTimeSortedList_congr _ _ _ (fun p _ => storedOrder_congr (savePluginStates_order im p))

/-- A rebuild of a state whose chain entries the format manager instantiates
completes and only replaces the graph. -/
theorem loadActivePlugins_of_chain (im : IconMenu) (l : List PluginDescription)
    (hch : chainOf im = l) (hload : ∀ p ∈ l, im.formatManager p = true) :
    ∃ im', loadActivePlugins im = some im' ∧ im'.settings = im.settings ∧
      im'.activePluginList = im.activePluginList ∧
      im'.formatManager = im.formatManager ∧ chainOf im' = l := by
  obtain ⟨im', h1, hs, ha, hf, _, _⟩ := loadActivePlugins_spec im (by rw [hch]; exact hload)
  refine ⟨im', h1, hs, ha, hf, ?_⟩
  unfold chainOf at hch ⊢
  rw [hs, ha]
  exact hch

/-! ## The bypass action -/

/-- C5: for every chain of plugins the format manager instantiates (the
chain of a running application) and every valid position k, the bypass action
completes; it flips
the stored bypass flag of the plugin at position k (an absent flag reads as
false, so it becomes true) and leaves unchanged every stored order value, the
bypass flag of every plugin with another key, the active list and the time
sorted chain. -/
theorem bypassBranch_frame (im : IconMenu) (k : Nat) (hk : k < (chainOf im).length)
    (hload : ∀ p ∈ chainOf im, im.formatManager p = true) :
    ∃ im' plug, bypassBranch im k = some im' ∧ (chainOf im)[k]? = some plug ∧
      storedBypass im'.settings plug = !storedBypass im.settings plug ∧
      (im.settings (getKey "bypass" plug) = none → storedBypass im'.settings plug = true) ∧
      (∀ p, im'.settings (getKey "order" p) = im.settings (getKey "order" p)) ∧
      (∀ p, storedOrder im'.settings p = storedOrder im.settings p) ∧
      (∀ p, getKey "bypass" p ≠ getKey "bypass" plug →
        im'.settings (getKey "bypass" p) = im.settings (getKey "bypass" p)) ∧
      (∀ p, getKey "bypass" p ≠ getKey "bypass" plug →
        storedBypass im'.settings p = storedBypass im.settings p) ∧
      im'.activePluginList = im.activePluginList ∧
      chainOf im' = chainOf im := by
  have hget : (chainOf im)[k]? = some (chainOf im)[k] := List.getElem?_eq_getElem hk
  have hget2 : (getTimeSortedList im.settings im.activePluginList)[k]? = some (chainOf im)[k] := hget
  generalize (chainOf im)[k] = plug at hget hget2
  have hb : bypassBranch im k = loadActivePlugins (savePluginStates
      ⟨setValue im.settings (getKey "bypass" plug)
        (boolValue (!getBoolValue im.settings (getKey "bypass" plug))),
        im.activePluginList, im.graph, im.formatManager⟩) := by
    unfold bypassBranch
    rw [hget2]
  generalize hs1 : setValue im.settings (getKey "bypass" plug)
      (boolValue (!getBoolValue im.settings (getKey "bypass" plug))) = s1 at hb
  have horder1 : ∀ p, (savePluginStates
      ⟨s1, im.activePluginList, im.graph, im.formatManager⟩).settings (getKey "order" p) =
      im.settings (getKey "order" p) := by
    intro p
    rw [savePluginStates_order, ← hs1]
    simp [setValue, order_ne_bypass]
  have hbypass1 : ∀ p, (savePluginStates
      ⟨s1, im.activePluginList, im.graph, im.formatManager⟩).settings (getKey "bypass" p) =
        if getKey "bypass" p = getKey "bypass" plug then
          some (boolValue (!getBoolValue im.settings (getKey "bypass" plug)))
        else im.settings (getKey "bypass" p) := by
    intro p
    rw [savePluginStates_bypass, ← hs1]
    rfl
  have hchain1 : chainOf (savePluginStates
      ⟨s1, im.activePluginList, im.graph, im.formatManager⟩) = chainOf im := by
    unfold chainOf
    exact getTimeSortedList_congr _ _ _ (fun p _ => storedOrder_congr (horder1 p))
  obtain ⟨im', him', hs, ha, _, hch⟩ := loadActivePlugins_of_chain _ _ hchain1 hload
  have horder : ∀ p, im'.settings (getKey "order" p) = im.settings (getKey "order" p) := by
    intro p
    rw [hs]
    exact horder1 p
  have hbypass : ∀ p, im'.settings (getKey "bypass" p) =
      if getKey "bypass" p = getKey "bypass" plug then
        some (boolValue (!getBoolValue im.settings (getKey "bypass" plug)))
      else im.settings (getKey "bypass" p) := by
    intro p
    rw [hs]
    exact hbypass1 p
  have hflip : storedBypass im'.settings plug = !storedBypass im.settings plug := by
    unfold storedBypass
    rw [getBoolValue, hbypass]
    simp only [if_true, boolValue]
    cases getBoolValue im.settings (getKey "bypass" plug) <;> simp
  refine ⟨im', plug, by rw [hb]; exact him', hget, hflip, ?_, horder,
    fun p => storedOrder_congr (horder p), ?_, ?_, ?_, hch⟩
  · intro habs
    rw [hflip]
    simp [storedBypass, getBoolValue, habs]
  · intro p hp
    rw [hbypass, if_neg hp]
  · intro p hp
    unfold storedBypass getBoolValue
    rw [hbypass, if_neg hp]
  · rw [ha]
    rfl

/-! ## The move loops renumber the chain -/

theorem moveUpLoop_spec (ts : List PluginDescription) (toMove : PluginDescription) (idx : Nat)
    (hidx : 0 < idx) (hlt : idx < ts.length)
    (hmove : ∀ (j : Nat) (p : PluginDescription), ts[j]? = some p →
      (equalsIgnoreCase (getKey "move" toMove) (getKey "move" p) = true ↔ j = idx))
    (hnd : ∀ (j j' : Nat) (p p' : PluginDescription), ts[j]? = some p → ts[j']? = some p' →
      getKey "order" p = getKey "order" p' → j = j') :
    ∀ (k i : Nat) (s : PropertySet), ts.length - i ≤ k →
      ∃ s', moveUpLoop ts toMove k i s = some s' ∧
        (∀ j p, i ≤ j → ts[j]? = some p →
          s' (getKey "order" p) = some (Value.int (upTarget idx j))) ∧
        (i = idx → ∀ p, ts[idx - 1]? = some p →
          s' (getKey "order" p) = some (Value.int ((idx : Int) + 1))) ∧
        (∀ key, (∀ j p, i ≤ j → ts[j]? = some p → key ≠ getKey "order" p) →
          (i = idx → ∀ p, ts[idx - 1]? = some p → key ≠ getKey "order" p) →
          s' key = s key) := by
  have hend : ∀ (i : Nat) (s : PropertySet), ts.length ≤ i →
      (∀ j p, i ≤ j → ts[j]? = some p →
          s (getKey "order" p) = some (Value.int (upTarget idx j))) ∧
        (i = idx → ∀ p, ts[idx - 1]? = some p →
          s (getKey "order" p) = some (Value.int ((idx : Int) + 1))) ∧
        (∀ key, (∀ j p, i ≤ j → ts[j]? = some p → key ≠ getKey "order" p) →
          (i = idx → ∀ p, ts[idx - 1]? = some p → key ≠ getKey "order" p) →
          s key = s key) := by
    intro i s hi
    refine ⟨?_, ?_, fun _ _ _ => rfl⟩
    · intro j p hj hp
      have : ts[j]? = none := List.getElem?_eq_none (by omega)
      rw [this] at hp; cases hp
    · intro h; omega
  intro k
  induction k with
  | zero =>
    intro i s hk
    exact ⟨s, rfl, hend i s (by omega)⟩
  | succ k ih =>
    intro i s hk
    cases hp : ts[i]? with
    | none =>
      refine ⟨s, by simp [moveUpLoop, hp], hend i s ?_⟩
      by_contra hcon
      have : ts[i]? = some ts[i] := List.getElem?_eq_getElem (by omega)
      rw [this] at hp; cases hp
    | some p =>
      by_cases hi : i = idx
      · have hmv : equalsIgnoreCase (getKey "move" toMove) (getKey "move" p) = true :=
          (hmove i p hp).mpr hi
        have hi0 : i ≠ 0 := by omega
        have hq : ts[i - 1]? = some ts[i - 1] := List.getElem?_eq_getElem (by omega)
        generalize ts[i - 1] = q at hq
        obtain ⟨s', hs', ha, _, hc⟩ := ih (i + 1)
          (setValue (setValue s (getKey "order" p) (Value.int (i : Int)))
            (getKey "order" q) (Value.int ((i : Int) + 1))) (by omega)
        have hpq : getKey "order" p ≠ getKey "order" q := by
          intro h
          have := hnd i (i - 1) p q hp hq h
          omega
        have hkeep : ∀ (j : Nat) (r : PluginDescription), j ≤ i → ts[j]? = some r →
            s' (getKey "order" r) =
              (setValue (setValue s (getKey "order" p) (Value.int (i : Int)))
                (getKey "order" q) (Value.int ((i : Int) + 1))) (getKey "order" r) := by
          intro j r hj hr
          apply hc
          · intro j' p' hj' hp' h
            have := hnd j j' r p' hr hp' h
            omega
          · intro h; omega
        refine ⟨s', ?_, ?_, ?_, ?_⟩
        · simp only [moveUpLoop, hp, hmv, if_true, hi0, if_false, hq]
          exact hs'
        · intro j r hj hr
          by_cases hji : j = i
          · subst hji
            rw [hp] at hr
            cases hr
            rw [hkeep j p (le_refl _) hp]
            simp [setValue, hpq, upTarget, hi]
          · exact ha j r (by omega) hr
        · intro _ r hr
          rw [← hi] at hr
          rw [hq] at hr
          cases hr
          rw [hkeep (i - 1) q (by omega) hq]
          simp [setValue, hi]
        · intro key h1 h2
          rw [hc key (fun j r hj hr => h1 j r (by omega) hr) (by intro h; omega)]
          have k1 : key ≠ getKey "order" p := h1 i p (le_refl _) hp
          have k2 : key ≠ getKey "order" q := h2 hi q (by rw [← hi]; exact hq)
          simp [setValue, k1, k2]
      · have hmv : equalsIgnoreCase (getKey "move" toMove) (getKey "move" p) = false := by
          cases h : equalsIgnoreCase (getKey "move" toMove) (getKey "move" p) with
          | false => rfl
          | true => exact absurd ((hmove i p hp).mp h) hi
        obtain ⟨s', hs', ha, hb, hc⟩ := ih (i + 1)
          (setValue s (getKey "order" p) (Value.int ((i : Int) + 1))) (by omega)
        refine ⟨s', ?_, ?_, ?_, ?_⟩
        · simp only [moveUpLoop, hp, hmv, Bool.false_eq_true, if_false]
          exact hs'
        · intro j r hj hr
          by_cases hji : j = i
          · subst hji
            rw [hp] at hr
            cases hr
            by_cases hnext : j + 1 = idx
            · have hpm : ts[idx - 1]? = some p := by
                have : idx - 1 = j := by omega
                rw [this]; exact hp
              rw [hb hnext p hpm]
              simp [upTarget, hi, hnext]
            · rw [hc (getKey "order" p)]
              · simp [setValue, upTarget, hi, hnext]
              · intro j' p' hj' hp' h
                have := hnd j j' p p' hp hp' h
                omega
              · intro h; exact absurd h hnext
          · exact ha j r (by omega) hr
        · intro h; exact absurd h hi
        · intro key h1 _
          rw [hc key (fun j r hj hr => h1 j r (by omega) hr)]
          · have k1 : key ≠ getKey "order" p := h1 i p (le_refl _) hp
            simp [setValue, k1]
          · intro hnext r hr
            have : idx - 1 = i := by omega
            rw [this, hp] at hr
            cases hr
            exact h1 i p (le_refl _) hp

theorem moveDownLoop_spec (ts : List PluginDescription) (toMove : PluginDescription) (idx : Nat)
    (hlt : idx + 1 < ts.length)
    (hmove : ∀ (j : Nat) (p : PluginDescription), ts[j]? = some p →
      (equalsIgnoreCase (getKey "move" toMove) (getKey "move" p) = true ↔ j = idx))
    (hnd : ∀ (j j' : Nat) (p p' : PluginDescription), ts[j]? = some p → ts[j']? = some p' →
      getKey "order" p = getKey "order" p' → j = j') :
    ∀ (k i : Nat) (s : PropertySet), ts.length - i ≤ k → i ≠ idx + 1 →
      ∃ s', moveDownLoop ts toMove k i s = some s' ∧
        (∀ j p, i ≤ j → ts[j]? = some p →
          s' (getKey "order" p) = some (Value.int (downTarget idx j))) ∧
        (∀ key, (∀ j p, i ≤ j → ts[j]? = some p → key ≠ getKey "order" p) →
          s' key = s key) := by
  have hend : ∀ (i : Nat) (s : PropertySet), ts.length ≤ i →
      (∀ j p, i ≤ j → ts[j]? = some p →
          s (getKey "order" p) = some (Value.int (downTarget idx j))) ∧
        (∀ key, (∀ j p, i ≤ j → ts[j]? = some p → key ≠ getKey "order" p) →
          s key = s key) := by
    intro i s hi
    refine ⟨?_, fun _ _ => rfl⟩
    intro j p hj hp
    have : ts[j]? = none := List.getElem?_eq_none (by omega)
    rw [this] at hp; cases hp
  intro k
  induction k with
  | zero =>
    intro i s hk _
    exact ⟨s, rfl, hend i s (by omega)⟩
  | succ k ih =>
    intro i s hk hne
    cases hp : ts[i]? with
    | none =>
      refine ⟨s, by simp [moveDownLoop, hp], hend i s ?_⟩
      by_contra hcon
      have : ts[i]? = some ts[i] := List.getElem?_eq_getElem (by omega)
      rw [this] at hp; cases hp
    | some p =>
      by_cases hi : i = idx
      · have hmv : equalsIgnoreCase (getKey "move" toMove) (getKey "move" p) = true :=
          (hmove i p hp).mpr hi
        have hq : ts[i + 1]? = some ts[i + 1] := List.getElem?_eq_getElem (by omega)
        generalize ts[i + 1] = q at hq
        obtain ⟨s', hs', ha, hc⟩ := ih (i + 2)
          (setValue (setValue s (getKey "order" p) (Value.int ((i : Int) + 2)))
            (getKey "order" q) (Value.int ((i : Int) + 1))) (by omega) (by omega)
        have hpq : getKey "order" p ≠ getKey "order" q := by
          intro h
          have := hnd i (i + 1) p q hp hq h
          omega
        have hkeep : ∀ (j : Nat) (r : PluginDescription), j ≤ i + 1 → ts[j]? = some r →
            s' (getKey "order" r) =
              (setValue (setValue s (getKey "order" p) (Value.int ((i : Int) + 2)))
                (getKey "order" q) (Value.int ((i : Int) + 1))) (getKey "order" r) := by
          intro j r hj hr
          apply hc
          intro j' p' hj' hp' h
          have := hnd j j' r p' hr hp' h
          omega
        refine ⟨s', ?_, ?_, ?_⟩
        · simp only [moveDownLoop, hp, hmv, if_true, hq]
          exact hs'
        · intro j r hj hr
          by_cases hji : j = i
          · subst hji
            rw [hp] at hr
            cases hr
            rw [hkeep j p (by omega) hp]
            simp [setValue, hpq, downTarget, hi]
          · by_cases hji2 : j = i + 1
            · subst hji2
              rw [hq] at hr
              cases hr
              rw [hkeep (i + 1) q (le_refl _) hq]
              simp [setValue, downTarget, hi]
            · exact ha j r (by omega) hr
        · intro key h1
          rw [hc key (fun j r hj hr => h1 j r (by omega) hr)]
          have k1 : key ≠ getKey "order" p := h1 i p (le_refl _) hp
          have k2 : key ≠ getKey "order" q := h1 (i + 1) q (by omega) hq
          simp [setValue, k1, k2]
      · have hmv : equalsIgnoreCase (getKey "move" toMove) (getKey "move" p) = false := by
          cases h : equalsIgnoreCase (getKey "move" toMove) (getKey "move" p) with
          | false => rfl
          | true => exact absurd ((hmove i p hp).mp h) hi
        obtain ⟨s', hs', ha, hc⟩ := ih (i + 1)
          (setValue s (getKey "order" p) (Value.int ((i : Int) + 1))) (by omega) (by omega)
        refine ⟨s', ?_, ?_, ?_⟩
        · simp only [moveDownLoop, hp, hmv, Bool.false_eq_true, if_false]
          exact hs'
        · intro j r hj hr
          by_cases hji : j = i
          · subst hji
            rw [hp] at hr
            cases hr
            rw [hc (getKey "order" p)]
            · have h2 : ¬ j = idx + 1 := hne
              simp [setValue, downTarget, hi, h2]
            · intro j' p' hj' hp' h
              have := hnd j j' p p' hp hp' h
              omega
          · exact ha j r (by omega) hr
        · intro key h1
          rw [hc key (fun j r hj hr => h1 j r (by omega) hr)]
          have k1 : key ≠ getKey "order" p := h1 i p (le_refl _) hp
          simp [setValue, k1]

/-! ## Chains given by their stored positions -/

theorem equalsIgnoreCase_getKey (t : String) (p q : PluginDescription) :
    equalsIgnoreCase (getKey t p) (getKey t q) =
      equalsIgnoreCase (identText p) (identText q) := by
  rw [getKey_eq, getKey_eq]
  simp only [equalsIgnoreCase, toLowerCase, String.data_append, List.map_append]
  rw [Bool.eq_iff_iff]
  simp

theorem CaseDistinct.keys {active : List PluginDescription} (h : CaseDistinct active) :
    (active.map (getKey "order")).Nodup := by
  unfold CaseDistinct at h
  have : active.map (fun p => toLowerCase (getKey "order" p)) =
      (active.map (getKey "order")).map toLowerCase := by simp
  rw [this] at h
  exact List.Nodup.of_map _ h

theorem CaseDistinct.eq_of_equalsIgnoreCase {active : List PluginDescription}
    (h : CaseDistinct active) (t : String) {p q : PluginDescription}
    (hp : p ∈ active) (hq : q ∈ active)
    (he : equalsIgnoreCase (getKey t p) (getKey t q) = true) : p = q := by
  rw [equalsIgnoreCase_getKey, ← equalsIgnoreCase_getKey "order"] at he
  have h2 : (toLowerCase (getKey "order" p)).data = (toLowerCase (getKey "order" q)).data := by
    simpa [equalsIgnoreCase] using he
  exact List.inj_on_of_nodup_map h hp hq (String.ext h2)

theorem length_le_of_range (s : PropertySet) (active : List PluginDescription)
    (hnd : (active.map (storedOrder s)).Nodup)
    (hr : ∀ p ∈ active, 0 < storedOrder s p ∧ storedOrder s p ≤ INT_MAX) :
    (active.length : Int) ≤ INT_MAX := by
  have hsub : (active.map (storedOrder s)).toFinset ⊆ Finset.Icc 1 INT_MAX := by
    intro v hv
    rw [List.mem_toFinset, List.mem_map] at hv
    obtain ⟨p, hp, rfl⟩ := hv
    rw [Finset.mem_Icc]
    have := hr p hp
    omega
  have hcard := Finset.card_le_card hsub
  rw [List.toFinset_card_of_nodup hnd, Int.card_Icc, List.length_map] at hcard
  have : (INT_MAX + 1 - 1).toNat = 2147483647 := by decide
  rw [this] at hcard
  unfold INT_MAX
  omega

/-- A well ordered chain has one time sorted list: any strictly ascending
arrangement of the active plugins is the list `getTimeSortedList` returns. -/
theorem chain_unique (s : PropertySet) (active l : List PluginDescription)
    (hw : WellOrdered s active) (hperm : l.Perm active)
    (hsorted : l.Pairwise (fun p q => storedOrder s p < storedOrder s q)) :
    getTimeSortedList s active = l := by
  have h := timeSorted_of_wellOrdered s active hw
  exact sorted_perm_unique s (h.1.trans hperm.symm) h.2 hsorted

theorem sorted_of_positions (s : PropertySet) (l : List PluginDescription)
    (hpos : ∀ (j : Nat) (p : PluginDescription), l[j]? = some p →
      storedOrder s p = (j : Int) + 1) :
    l.Pairwise (fun p q => storedOrder s p < storedOrder s q) := by
  rw [List.pairwise_iff_getElem]
  intro i j hi hj hij
  rw [hpos i l[i] (List.getElem?_eq_getElem hi), hpos j l[j] (List.getElem?_eq_getElem hj)]
  omega

theorem positions_facts (s : PropertySet) (active l : List PluginDescription)
    (hnda : active.Nodup) (hmem : ∀ p, p ∈ l ↔ p ∈ active)
    (hlen : (l.length : Int) ≤ INT_MAX)
    (hpos : ∀ (j : Nat) (p : PluginDescription), l[j]? = some p →
      storedOrder s p = (j : Int) + 1) :
    WellOrdered s active ∧ l.Perm active := by
  have hsorted := sorted_of_positions s l hpos
  have hndl : l.Nodup := hsorted.imp (fun h heq => by rw [heq] at h; exact lt_irrefl _ h)
  have hperm : l.Perm active := (List.perm_ext_iff_of_nodup hndl hnda).mpr hmem
  have hmapnd : (l.map (storedOrder s)).Nodup := by
    have : (l.map (storedOrder s)).Pairwise (fun a b => a < b) := List.pairwise_map.mpr hsorted
    exact this.imp (fun h => ne_of_lt h)
  refine ⟨⟨(hperm.map _).nodup_iff.mp hmapnd, ?_, ?_⟩, hperm⟩
  · intro p hp
    obtain ⟨j, hj⟩ := List.mem_iff_getElem?.mp ((hmem p).mpr hp)
    have hjl : j < l.length := by
      by_contra hcon
      rw [List.getElem?_eq_none (by omega)] at hj
      cases hj
    rw [hpos j p hj]
    omega
  · cases hl : l with
    | nil =>
      left
      have := hperm
      rw [hl] at this
      exact List.Perm.eq_nil this.symm
    | cons a l' =>
      right
      have ha : l[0]? = some a := by rw [hl]; simp
      refine ⟨a, (hmem a).mp (by rw [hl]; exact List.mem_cons_self _ _), ?_⟩
      rw [hpos 0 a ha]
      decide

/-- When the store numbers the entries of `l` by position, from 1, and `l`
has the entries of the active list, `l` is the time sorted list. -/
theorem chain_eq_of_positions (s : PropertySet) (active l : List PluginDescription)
    (hnda : active.Nodup) (hmem : ∀ p, p ∈ l ↔ p ∈ active)
    (hlen : (l.length : Int) ≤ INT_MAX)
    (hpos : ∀ (j : Nat) (p : PluginDescription), l[j]? = some p →
      storedOrder s p = (j : Int) + 1) :
    getTimeSortedList s active = l := by
  obtain ⟨hw, hperm⟩ := positions_facts s active l hnda hmem hlen hpos
  exact chain_unique s active l hw hperm (sorted_of_positions s l hpos)

theorem swapIndex_swapIndex (i j : Nat) (hi : 1 ≤ i) : swapIndex i (swapIndex i j) = j := by
  unfold swapIndex
  split <;> split <;> try split
  all_goals omega

theorem getElem?_swapAdjacent (l : List PluginDescription) (i j : Nat)
    (hi : 1 ≤ i) (hlt : i < l.length) :
    (swapAdjacent l i)[j]? = l[swapIndex i j]? := by
  have h1 : l[i - 1]? = some l[i - 1] := List.getElem?_eq_getElem (by omega)
  have h2 : l[i]? = some l[i] := List.getElem?_eq_getElem hlt
  unfold swapAdjacent swapIndex
  rw [h1, h2]
  simp only [List.getElem?_set, List.length_set]
  by_cases hj : j = i
  · subst hj
    simp [hlt, h1]
  · by_cases hj2 : j = i - 1
    · subst hj2
      have : ¬ i = i - 1 := by omega
      have h3 : i - 1 < l.length := by omega
      simp only [hj, if_false, if_true, this, h3]
      exact h2.symm
    · have e1 : ¬ i = j := fun h => hj h.symm
      have e2 : ¬ i - 1 = j := fun h => hj2 h.symm
      simp [hj, hj2, e1, e2]

theorem mem_swapAdjacent (l : List PluginDescription) (i : Nat)
    (hi : 1 ≤ i) (hlt : i < l.length) (p : PluginDescription) :
    p ∈ swapAdjacent l i ↔ p ∈ l := by
  rw [List.mem_iff_getElem?, List.mem_iff_getElem?]
  constructor
  · rintro ⟨j, hj⟩
    exact ⟨swapIndex i j, by rw [← getElem?_swapAdjacent l i j hi hlt]; exact hj⟩
  · rintro ⟨j, hj⟩
    refine ⟨swapIndex i j, ?_⟩
    rw [getElem?_swapAdjacent l i _ hi hlt, swapIndex_swapIndex i j hi]
    exact hj

theorem length_swapAdjacent (l : List PluginDescription) (i : Nat) :
    (swapAdjacent l i).length = l.length := by
  unfold swapAdjacent
  split <;> simp

theorem swapAdjacent_swapAdjacent (l : List PluginDescription) (i : Nat)
    (hi : 1 ≤ i) (hlt : i < l.length) : swapAdjacent (swapAdjacent l i) i = l := by
  apply List.ext_getElem?
  intro j
  rw [getElem?_swapAdjacent _ i j hi (by rw [length_swapAdjacent]; exact hlt),
    getElem?_swapAdjacent l i _ hi hlt, swapIndex_swapIndex i j hi]

theorem upTarget_swapIndex (i j : Nat) (hi : 1 ≤ i) :
    upTarget i (swapIndex i j) = (j : Int) + 1 := by
  unfold upTarget swapIndex
  split <;> split <;> try split
  all_goals omega

theorem downTarget_swapIndex (i j : Nat) :
    downTarget i (swapIndex (i + 1) j) = (j : Int) + 1 := by
  unfold downTarget swapIndex
  split <;> split <;> try split
  all_goals omega

/-- With two or more pairwise distinct positive int order values the least
one is below `INT_MAX`. -/
theorem wellOrdered_of_two (s : PropertySet) (active : List PluginDescription)
    (hnd : (active.map (storedOrder s)).Nodup)
    (hr : ∀ p ∈ active, 0 < storedOrder s p ∧ storedOrder s p ≤ INT_MAX)
    (h2 : 2 ≤ active.length) : WellOrdered s active := by
  refine ⟨hnd, hr, Or.inr ?_⟩
  match active, hnd, hr, h2 with
  | a :: b :: rest, hnd, hr, _ =>
    have ha := hr a (List.mem_cons_self _ _)
    have hb := hr b (List.mem_cons_of_mem _ (List.mem_cons_self _ _))
    have hne : storedOrder s a ≠ storedOrder s b := by
      simp only [List.map_cons, List.nodup_cons, List.mem_cons, not_or] at hnd
      exact hnd.1.1
    by_cases h : storedOrder s a < INT_MAX
    · exact ⟨a, List.mem_cons_self _ _, h⟩
    · exact ⟨b, List.mem_cons_of_mem _ (List.mem_cons_self _ _), by omega⟩

theorem moveUpBranch_eq (im : IconMenu) (index : Nat) :
    moveUpBranch im index =
      match (chainOf im)[index]? with
      | none => none
      | some toMove =>
        match moveUpLoop (chainOf im) toMove (chainOf im).length 0
            (savePluginStates im).settings with
        | none => none
        | some s => loadActivePlugins ⟨s, im.activePluginList, im.graph, im.formatManager⟩ := by
  have h := savePluginStates_chain im
  unfold chainOf at h
  unfold moveUpBranch
  simp only
  rw [h]
  rfl

theorem moveDownBranch_eq (im : IconMenu) (index : Nat) :
    moveDownBranch im index =
      match (chainOf im)[index]? with
      | none => none
      | some toMove =>
        match moveDownLoop (chainOf im) toMove (chainOf im).length 0
            (savePluginStates im).settings with
        | none => none
        | some s => loadActivePlugins ⟨s, im.activePluginList, im.graph, im.formatManager⟩ := by
  have h := savePluginStates_chain im
  unfold chainOf at h
  unfold moveDownBranch
  simp only
  rw [h]
  rfl

/-- The facts about a well ordered chain the move loops rely on. -/
theorem chain_index_facts (im : IconMenu)
    (hcase : CaseDistinct im.activePluginList)
    (hw : WellOrdered im.settings im.activePluginList) (idx : Nat) (toMove : PluginDescription)
    (hto : (chainOf im)[idx]? = some toMove) :
    (∀ (j : Nat) (p : PluginDescription), (chainOf im)[j]? = some p →
      (equalsIgnoreCase (getKey "move" toMove) (getKey "move" p) = true ↔ j = idx)) ∧
    (∀ (j j' : Nat) (p p' : PluginDescription), (chainOf im)[j]? = some p →
      (chainOf im)[j']? = some p' → getKey "order" p = getKey "order" p' → j = j') := by
  have hts := timeSorted_of_wellOrdered im.settings im.activePluginList hw
  have hnda : im.activePluginList.Nodup := List.Nodup.of_map _ hw.1
  have hndts : (chainOf im).Nodup := hts.1.nodup_iff.mpr hnda
  have hmem : ∀ {j : Nat} {p : PluginDescription}, (chainOf im)[j]? = some p →
      p ∈ im.activePluginList := fun h => hts.1.subset (List.mem_iff_getElem?.mpr ⟨_, h⟩)
  have hidx : ∀ (j j' : Nat) (p : PluginDescription), (chainOf im)[j]? = some p →
      (chainOf im)[j']? = some p → j = j' := by
    intro j j' p h1 h2
    have hlt : ∀ {a : Nat} {q : PluginDescription}, (chainOf im)[a]? = some q →
        a < (chainOf im).length := by
      intro a q h
      by_contra hcon
      rw [List.getElem?_eq_none (by omega)] at h
      cases h
    have hn := List.nodup_iff_getElem?_ne_getElem?.mp hndts
    rcases Nat.lt_trichotomy j j' with h | h | h
    · exact absurd (h1.trans h2.symm) (hn j j' h (hlt h2))
    · exact h
    · exact absurd (h2.trans h1.symm) (hn j' j h (hlt h1))
  constructor
  · intro j p hp
    constructor
    · intro he
      have := hcase.eq_of_equalsIgnoreCase "move" (hmem hto) (hmem hp) he
      subst this
      exact hidx j idx toMove hp hto
    · intro hj
      subst hj
      rw [hto] at hp
      cases hp
      exact equalsIgnoreCase_refl _
  · intro j j' p p' hp hp' hk
    have : p = p' := List.inj_on_of_nodup_map hcase.keys (hmem hp) (hmem hp') hk
    subst this
    exact hidx j j' p hp hp'

theorem getElem?_lt_length {l : List PluginDescription} {j : Nat} {p : PluginDescription}
    (h : l[j]? = some p) : j < l.length := by
  by_contra hcon
  rw [List.getElem?_eq_none (by omega)] at h
  cases h

theorem storedOrder_of_get {s : PropertySet} {p : PluginDescription} {v : Int}
    (h : s (getKey "order" p) = some (Value.int v)) : storedOrder s p = v := by
  unfold storedOrder atoi
  rw [h]

theorem moveUpBranch_spec (im : IconMenu) (i : Nat)
    (hcase : CaseDistinct im.activePluginList)
    (hw : WellOrdered im.settings im.activePluginList)
    (hload : ∀ p ∈ chainOf im, im.formatManager p = true)
    (hi : 1 ≤ i) (hlt : i < im.activePluginList.length) :
    ∃ im', moveUpBranch im i = some im' ∧
      im'.activePluginList = im.activePluginList ∧
      im'.formatManager = im.formatManager ∧
      (∀ (j : Nat) (p : PluginDescription), (chainOf im)[j]? = some p →
        im'.settings (getKey "order" p) = some (Value.int (upTarget i j))) ∧
      WellOrdered im'.settings im'.activePluginList ∧
      chainOf im' = swapAdjacent (chainOf im) i := by
  have hts := timeSorted_of_wellOrdered im.settings im.activePluginList hw
  have hnda : im.activePluginList.Nodup := List.Nodup.of_map _ hw.1
  have hlen : (chainOf im).length = im.activePluginList.length := getTimeSortedList_length _ _
  have hto : (chainOf im)[i]? = some (chainOf im)[i] := List.getElem?_eq_getElem (by omega)
  generalize (chainOf im)[i] = toMove at hto
  obtain ⟨hmove, hnd⟩ := chain_index_facts im hcase hw i toMove hto
  obtain ⟨s', hs', ha, _, _⟩ := moveUpLoop_spec (chainOf im) toMove i (by omega) (by omega)
    hmove hnd (chainOf im).length 0 (savePluginStates im).settings (by omega)
  have hpos : ∀ (j : Nat) (p : PluginDescription), (swapAdjacent (chainOf im) i)[j]? = some p →
      storedOrder s' p = (j : Int) + 1 := by
    intro j p hp
    rw [getElem?_swapAdjacent _ i j hi (by omega)] at hp
    rw [storedOrder_of_get (ha _ p (Nat.zero_le _) hp)]
    exact upTarget_swapIndex i j hi
  have hmem : ∀ p, p ∈ swapAdjacent (chainOf im) i ↔ p ∈ im.activePluginList := by
    intro p
    rw [mem_swapAdjacent _ i hi (by omega)]
    exact hts.1.mem_iff
  have hlenle : ((swapAdjacent (chainOf im) i).length : Int) ≤ INT_MAX := by
    rw [length_swapAdjacent, hlen]
    exact length_le_of_range _ _ hw.1 hw.2.1
  have hchain : chainOf ⟨s', im.activePluginList, im.graph, im.formatManager⟩ =
      swapAdjacent (chainOf im) i :=
    chain_eq_of_positions s' im.activePluginList _ hnda hmem hlenle hpos
  obtain ⟨im', him', hs, hact, hfm, hch⟩ := loadActivePlugins_of_chain _ _ hchain
    (fun p hp => hload p ((mem_swapAdjacent _ i hi (by omega) p).mp hp))
  refine ⟨im', ?_, hact, hfm, ?_, ?_, hch⟩
  · rw [moveUpBranch_eq, hto]
    simp only [hs']
    exact him'
  · intro j p hp
    rw [hs]
    exact ha j p (Nat.zero_le _) hp
  · rw [hs, hact]
    exact (positions_facts s' im.activePluginList _ hnda hmem hlenle hpos).1

theorem moveDownBranch_spec (im : IconMenu) (i : Nat)
    (hcase : CaseDistinct im.activePluginList)
    (hw : WellOrdered im.settings im.activePluginList)
    (hload : ∀ p ∈ chainOf im, im.formatManager p = true)
    (hlt : i + 1 < im.activePluginList.length) :
    ∃ im', moveDownBranch im i = some im' ∧
      im'.activePluginList = im.activePluginList ∧
      im'.formatManager = im.formatManager ∧
      (∀ (j : Nat) (p : PluginDescription), (chainOf im)[j]? = some p →
        im'.settings (getKey "order" p) = some (Value.int (downTarget i j))) ∧
      WellOrdered im'.settings im'.activePluginList ∧
      chainOf im' = swapAdjacent (chainOf im) (i + 1) := by
  have hts := timeSorted_of_wellOrdered im.settings im.activePluginList hw
  have hnda : im.activePluginList.Nodup := List.Nodup.of_map _ hw.1
  have hlen : (chainOf im).length = im.activePluginList.length := getTimeSortedList_length _ _
  have hto : (chainOf im)[i]? = some (chainOf im)[i] := List.getElem?_eq_getElem (by omega)
  generalize (chainOf im)[i] = toMove at hto
  obtain ⟨hmove, hnd⟩ := chain_index_facts im hcase hw i toMove hto
  obtain ⟨s', hs', ha, _⟩ := moveDownLoop_spec (chainOf im) toMove i (by omega)
    hmove hnd (chainOf im).length 0 (savePluginStates im).settings (by omega) (by omega)
  have hpos : ∀ (j : Nat) (p : PluginDescription),
      (swapAdjacent (chainOf im) (i + 1))[j]? = some p →
      storedOrder s' p = (j : Int) + 1 := by
    intro j p hp
    rw [getElem?_swapAdjacent _ (i + 1) j (by omega) (by omega)] at hp
    rw [storedOrder_of_get (ha _ p (Nat.zero_le _) hp)]
    exact downTarget_swapIndex i j
  have hmem : ∀ p, p ∈ swapAdjacent (chainOf im) (i + 1) ↔ p ∈ im.activePluginList := by
    intro p
    rw [mem_swapAdjacent _ (i + 1) (by omega) (by omega)]
    exact hts.1.mem_iff
  have hlenle : ((swapAdjacent (chainOf im) (i + 1)).length : Int) ≤ INT_MAX := by
    rw [length_swapAdjacent, hlen]
    exact length_le_of_range _ _ hw.1 hw.2.1
  have hchain : chainOf ⟨s', im.activePluginList, im.graph, im.formatManager⟩ =
      swapAdjacent (chainOf im) (i + 1) :=
    chain_eq_of_positions s' im.activePluginList _ hnda hmem hlenle hpos
  obtain ⟨im', him', hs, hact, hfm, hch⟩ := loadActivePlugins_of_chain _ _ hchain
    (fun p hp => hload p ((mem_swapAdjacent _ (i + 1) (by omega) (by omega) p).mp hp))
  refine ⟨im', ?_, hact, hfm, ?_, ?_, hch⟩
  · rw [moveDownBranch_eq, hto]
    simp only [hs']
    exact him'
  · intro j p hp
    rw [hs]
    exact ha j p (Nat.zero_le _) hp
  · rw [hs, hact]
    exact (positions_facts s' im.activePluginList _ hnda hmem hlenle hpos).1

/-- C7 (amended): for a chain of plugins the format manager instantiates
(the chain of a running application) whose order keys are pairwise distinct
also when letter case is ignored and whose stored order values are pairwise
distinct positive ints, the move up action on position i (1 <= i < N)
completes and renumbers the chain by position: the moved plugin gets the value i, its predecessor gets
i + 1, and the plugin at every other 0-based position j gets j + 1; the time
sorted chain afterwards is the original one with positions i - 1 and i
exchanged. -/
theorem moveUpBranch_renumbers (im : IconMenu) (i : Nat)
    (hcase : CaseDistinct im.activePluginList)
    (hdistinct : (im.activePluginList.map (storedOrder im.settings)).Nodup)
    (hrange : ∀ p ∈ im.activePluginList,
      0 < storedOrder im.settings p ∧ storedOrder im.settings p ≤ INT_MAX)
    (hload : ∀ p ∈ chainOf im, im.formatManager p = true)
    (hi : 1 ≤ i) (hlt : i < im.activePluginList.length) :
    ∃ im', moveUpBranch im i = some im' ∧
      (∀ p, (chainOf im)[i]? = some p → storedOrder im'.settings p = (i : Int)) ∧
      (∀ p, (chainOf im)[i - 1]? = some p → storedOrder im'.settings p = (i : Int) + 1) ∧
      (∀ (j : Nat) (p : PluginDescription), j ≠ i → j ≠ i - 1 → (chainOf im)[j]? = some p →
        storedOrder im'.settings p = (j : Int) + 1) ∧
      chainOf im' = swapAdjacent (chainOf im) i := by
  have hw := wellOrdered_of_two im.settings im.activePluginList hdistinct hrange (by omega)
  obtain ⟨im', h1, _, _, h3, _, h5⟩ := moveUpBranch_spec im i hcase hw hload hi hlt
  refine ⟨im', h1, ?_, ?_, ?_, h5⟩
  · intro p hp
    rw [storedOrder_of_get (h3 i p hp)]
    simp [upTarget]
  · intro p hp
    rw [storedOrder_of_get (h3 (i - 1) p hp)]
    have e1 : ¬ i - 1 = i := by omega
    have e2 : i - 1 + 1 = i := by omega
    simp [upTarget, e1, e2]
  · intro j p hj1 hj2 hp
    rw [storedOrder_of_get (h3 j p hp)]
    have e2 : ¬ j + 1 = i := by omega
    simp [upTarget, hj1, e2]

/-- Away from keys that are equal ignoring case the round trip holds: for a
chain of plugins the format manager instantiates whose order keys are
pairwise distinct also when letter case is ignored and whose stored order
values are pairwise distinct positive ints, and every position i with
1 <= i < N, the move up action on position i completes and puts the moved
plugin at position i - 1, the move down action on that position then
completes, and the time sorted chain after both equals the original one. -/
theorem moveUp_then_moveDown_caseDistinct (im : IconMenu) (i : Nat)
    (hcase : CaseDistinct im.activePluginList)
    (hdistinct : (im.activePluginList.map (storedOrder im.settings)).Nodup)
    (hrange : ∀ p ∈ im.activePluginList,
      0 < storedOrder im.settings p ∧ storedOrder im.settings p ≤ INT_MAX)
    (hload : ∀ p ∈ chainOf im, im.formatManager p = true)
    (hi : 1 ≤ i) (hlt : i < im.activePluginList.length) :
    ∃ im₁ im₂, moveUpBranch im i = some im₁ ∧
      (chainOf im₁)[i - 1]? = (chainOf im)[i]? ∧
      moveDownBranch im₁ (i - 1) = some im₂ ∧
      im₂.activePluginList = im.activePluginList ∧
      chainOf im₂ = chainOf im := by
  have hw := wellOrdered_of_two im.settings im.activePluginList hdistinct hrange (by omega)
  have hlen : (chainOf im).length = im.activePluginList.length := getTimeSortedList_length _ _
  obtain ⟨im₁, h1, hact1, hfm1, _, hw1, hch1⟩ := moveUpBranch_spec im i hcase hw hload hi hlt
  have hload1 : ∀ p ∈ chainOf im₁, im₁.formatManager p = true := by
    intro p hp
    rw [hfm1]
    rw [hch1] at hp
    exact hload p ((mem_swapAdjacent _ i hi (by omega) p).mp hp)
  obtain ⟨im₂, h2, hact2, _, _, _, hch2⟩ := moveDownBranch_spec im₁ (i - 1)
    (by rw [hact1]; exact hcase) hw1 hload1 (by rw [hact1]; omega)
  refine ⟨im₁, im₂, h1, ?_, h2, by rw [hact2, hact1], ?_⟩
  · rw [hch1, getElem?_swapAdjacent _ i _ hi (by omega)]
    have : swapIndex i (i - 1) = i := by
      unfold swapIndex
      have e1 : ¬ i - 1 = i := by omega
      simp [e1]
    rw [this]
  · have e : i - 1 + 1 = i := by omega
    rw [hch2, hch1, e]
    exact swapAdjacent_swapAdjacent _ i hi (by omega)

/-! ## The delete action -/

theorem foldl_removeValue_apply (l : List PluginDescription) :
    ∀ (s : PropertySet) (key : String),
      (l.foldl (fun s p => removeValue s (getKey "state" p)) s) key =
        if key ∈ l.map (getKey "state") then none else s key := by
  induction l with
  | nil => intro s key; simp
  | cons a l ih =>
    intro s key
    rw [List.foldl_cons, ih]
    by_cases h1 : key ∈ l.map (getKey "state")
    · simp [h1]
    · by_cases h2 : key = getKey "state" a
      · simp [h2, removeValue]
      · simp [h1, h2, removeValue]

theorem deletePluginStates_order (im : IconMenu) (p : PluginDescription) :
    (deletePluginStates im).settings (getKey "order" p) = im.settings (getKey "order" p) := by
  unfold deletePluginStates
  simp only
  rw [foldl_removeValue_apply, if_neg]
  intro h
  obtain ⟨q, _, hq⟩ := List.mem_map.mp h
  exact order_ne_state p q hq.symm

theorem deletePluginStates_bypass (im : IconMenu) (p : PluginDescription) :
    (deletePluginStates im).settings (getKey "bypass" p) = im.settings (getKey "bypass" p) := by
  unfold deletePluginStates
  simp only
  rw [foldl_removeValue_apply, if_neg]
  intro h
  obtain ⟨q, _, hq⟩ := List.mem_map.mp h
  exact bypass_ne_state p q hq.symm

theorem deletePluginStates_state (im : IconMenu) (p : PluginDescription)
    (hp : p ∈ chainOf im) : (deletePluginStates im).settings (getKey "state" p) = none := by
  unfold deletePluginStates
  simp only
  rw [foldl_removeValue_apply, if_pos]
  exact List.mem_map.mpr ⟨p, hp, rfl⟩

theorem deletePluginStates_chain (im : IconMenu) :
    chainOf (deletePluginStates im) = chainOf im := by
  unfold chainOf
  exact getTimeSortedList_congr _ _ _
    (fun p _ => storedOrder_congr (deletePluginStates_order im p))

/-- The snapshot loop only writes the state keys of the entries it visits. -/
theorem saveStatesLoop_frame_list (g : AudioProcessorGraph) (key : String) :
    ∀ (l : List PluginDescription) (i : Nat) (s : PropertySet),
      key ∉ l.map (getKey "state") → saveStatesLoop g l i s key = s key := by
  intro l
  induction l with
  | nil => intro i s _; rfl
  | cons p l ih =>
    intro i s hkey
    simp only [List.map_cons, List.mem_cons, not_or] at hkey
    simp only [saveStatesLoop]
    cases getNodeForId g (i + 1) with
    | none => rfl
    | some node =>
      simp only
      rw [ih _ _ hkey.2]
      simp [setValue, hkey.1]

theorem findTypeToRemove_eq (active : List PluginDescription) (plug : PluginDescription)
    (hcase : CaseDistinct active) (hp : plug ∈ active) :
    findTypeToRemove active (getKey "order" plug) = some plug := by
  unfold findTypeToRemove
  have hne : ¬ active.length = 0 := by
    intro h
    rw [List.length_eq_zero.mp h] at hp
    simp at hp
  rw [if_neg hne]
  cases hf : active.find? (fun t => equalsIgnoreCase (getKey "order" plug) (getKey "order" t)) with
  | none =>
    have := List.find?_eq_none.mp hf plug hp
    simp [equalsIgnoreCase_refl] at this
  | some t =>
    have h1 := List.find?_some hf
    have h2 := List.mem_of_find?_eq_some hf
    rw [hcase.eq_of_equalsIgnoreCase "order" hp h2 h1]

theorem deleteBranch_eq (im : IconMenu) (index : Nat) :
    deleteBranch im index =
      match (chainOf im)[index]? with
      | none => none
      | some plug =>
        match findTypeToRemove im.activePluginList (getKey "order" plug) with
        | none => none
        | some typeToRemove =>
          loadActivePlugins (savePluginStates
            ⟨removeValue (removeValue (deletePluginStates im).settings (getKey "order" plug))
                (getKey "bypass" plug),
              removeType im.activePluginList typeToRemove, im.graph, im.formatManager⟩) := by
  have h := deletePluginStates_chain im
  unfold chainOf at h
  unfold deleteBranch
  simp only
  rw [h]
  rfl

/-- Away from keys that are equal ignoring case the delete action does what
it should: for a chain of plugins the format manager instantiates whose order
keys are pairwise distinct also when letter case is ignored and whose stored
order values are pairwise distinct ints in 1..INT_MAX-1, and every valid
position k, the delete action completes; afterwards the store holds none of the three keys (order, bypass, state) of
the deleted plugin, that plugin is no longer in the active list while every
other active plugin still is, and the time sorted chain is the original chain
with position k removed. -/
theorem deleteBranch_removes_caseDistinct (im : IconMenu) (k : Nat)
    (hcase : CaseDistinct im.activePluginList)
    (hdistinct : (im.activePluginList.map (storedOrder im.settings)).Nodup)
    (hrange : ∀ p ∈ im.activePluginList,
      1 ≤ storedOrder im.settings p ∧ storedOrder im.settings p ≤ INT_MAX - 1)
    (hload : ∀ p ∈ chainOf im, im.formatManager p = true)
    (hk : k < im.activePluginList.length) :
    ∃ im' plug, deleteBranch im k = some im' ∧ (chainOf im)[k]? = some plug ∧
      im'.settings (getKey "order" plug) = none ∧
      im'.settings (getKey "bypass" plug) = none ∧
      im'.settings (getKey "state" plug) = none ∧
      plug ∉ im'.activePluginList ∧
      (∀ p, p ∈ im'.activePluginList ↔ p ∈ im.activePluginList ∧ p ≠ plug) ∧
      chainOf im' = (chainOf im).eraseIdx k := by
  have hw : WellOrdered im.settings im.activePluginList := by
    refine ⟨hdistinct, fun p hp => by have := hrange p hp; omega, ?_⟩
    cases hl : im.activePluginList with
    | nil => exact Or.inl rfl
    | cons a l =>
      right
      have := hrange a (by rw [hl]; exact List.mem_cons_self _ _)
      exact ⟨a, List.mem_cons_self _ _, by omega⟩
  have hts := timeSorted_of_wellOrdered im.settings im.activePluginList hw
  have hnda : im.activePluginList.Nodup := List.Nodup.of_map _ hw.1
  have hndts : (chainOf im).Nodup := hts.1.nodup_iff.mpr hnda
  have hlen : (chainOf im).length = im.activePluginList.length := getTimeSortedList_length _ _
  have hklt : k < (chainOf im).length := by omega
  have herase : (chainOf im).erase (chainOf im)[k] = (chainOf im).eraseIdx k :=
    hndts.erase_getElem k hklt
  have hto : (chainOf im)[k]? = some (chainOf im)[k] := List.getElem?_eq_getElem hklt
  have hpmem : (chainOf im)[k] ∈ chainOf im := List.getElem_mem hklt
  generalize (chainOf im)[k] = plug at hto herase hpmem
  have hpa : plug ∈ im.activePluginList := hts.1.subset hpmem
  have hfind := findTypeToRemove_eq im.activePluginList plug hcase hpa
  -- the state after the removals, before the snapshot and the rebuild
  generalize hs2 : removeValue (removeValue (deletePluginStates im).settings
    (getKey "order" plug)) (getKey "bypass" plug) = s2
  have hdel : deleteBranch im k = loadActivePlugins (savePluginStates
      ⟨s2, removeType im.activePluginList plug, im.graph, im.formatManager⟩) := by
    rw [deleteBranch_eq, hto]
    simp only [hfind, hs2]
  have hmem2 : ∀ p, p ∈ removeType im.activePluginList plug ↔
      p ∈ im.activePluginList ∧ p ≠ plug := by
    intro p
    simp [removeType]
  have hkeyne : ∀ p, p ∈ removeType im.activePluginList plug →
      getKey "order" p ≠ getKey "order" plug := by
    intro p hp hkey
    have := (hmem2 p).mp hp
    exact this.2 (List.inj_on_of_nodup_map hcase.keys this.1 hpa hkey)
  have hord2 : ∀ p, p ∈ removeType im.activePluginList plug →
      storedOrder s2 p = storedOrder im.settings p := by
    intro p hp
    apply storedOrder_congr
    rw [← hs2]
    simp only [removeValue, order_ne_bypass, if_false, hkeyne p hp]
    exact deletePluginStates_order im p
  have hrem : removeType im.activePluginList plug = im.activePluginList.erase plug := by
    rw [hnda.erase_eq_filter]
    rfl
  have hperm : ((chainOf im).eraseIdx k).Perm (removeType im.activePluginList plug) := by
    rw [← herase, hrem]
    exact hts.1.erase plug
  have hw2 : WellOrdered s2 (removeType im.activePluginList plug) := by
    have hmap : (removeType im.activePluginList plug).map (storedOrder s2) =
        (removeType im.activePluginList plug).map (storedOrder im.settings) :=
      List.map_congr_left (fun p hp => hord2 p hp)
    refine ⟨?_, ?_, ?_⟩
    · rw [hmap]
      exact hdistinct.sublist ((List.filter_sublist _).map _)
    · intro p hp
      rw [hord2 p hp]
      have := hrange p ((hmem2 p).mp hp).1
      omega
    · cases hl : removeType im.activePluginList plug with
      | nil => exact Or.inl rfl
      | cons a l =>
        right
        have ha : a ∈ removeType im.activePluginList plug := by
          rw [hl]; exact List.mem_cons_self _ _
        refine ⟨a, List.mem_cons_self _ _, ?_⟩
        rw [hord2 a ha]
        have := hrange a ((hmem2 a).mp ha).1
        omega
  have hsorted : ((chainOf im).eraseIdx k).Pairwise
      (fun p q => storedOrder s2 p < storedOrder s2 q) := by
    have h1 := hts.2.sublist (List.eraseIdx_sublist (chainOf im) k)
    refine h1.imp_of_mem ?_
    intro a b ha hb hab
    rw [hord2 a (hperm.subset ha), hord2 b (hperm.subset hb)]
    exact hab
  have hchain2 : getTimeSortedList s2 (removeType im.activePluginList plug) =
      (chainOf im).eraseIdx k := chain_unique s2 _ _ hw2 hperm hsorted
  have hchain1 : chainOf (savePluginStates
      ⟨s2, removeType im.activePluginList plug, im.graph, im.formatManager⟩) =
      (chainOf im).eraseIdx k := by
    rw [savePluginStates_chain]
    exact hchain2
  obtain ⟨im', him', hs, hact, _, hch⟩ := loadActivePlugins_of_chain _ _ hchain1
    (fun p hp => hload p ((List.eraseIdx_sublist (chainOf im) k).subset hp))
  refine ⟨im', plug, by rw [hdel]; exact him', hto, ?_, ?_, ?_, ?_, ?_, hch⟩
  · rw [hs, savePluginStates_order, ← hs2]
    simp [removeValue, order_ne_bypass]
  · rw [hs, savePluginStates_bypass, ← hs2]
    simp [removeValue]
  · rw [hs]
    unfold savePluginStates
    simp only
    rw [saveStatesLoop_frame_list, ← hs2]
    · have e1 : getKey "state" plug ≠ getKey "order" plug := fun h => order_ne_state _ _ h.symm
      have e2 : getKey "state" plug ≠ getKey "bypass" plug := fun h => bypass_ne_state _ _ h.symm
      simp only [removeValue, e1, e2, if_false]
      exact deletePluginStates_state im plug hpmem
    · rw [hchain2]
      intro h
      obtain ⟨q, hq, hqk⟩ := List.mem_map.mp h
      exact hkeyne q (hperm.subset hq) (getKey_eq_of_eq "state" "order" hqk)
  · intro h
    rw [hact] at h
    exact ((hmem2 plug).mp h).2 rfl
  · intro p
    rw [hact]
    exact hmem2 p


/-! ## The code on sample inputs -/

/-- On each sample built with `start` the rebuild of the constructor
completes, and the graph hosts one instance per chain entry. -/
theorem start_completes :
    ((loadActivePlugins (fresh threeSettings [y, z, x])).isSome = true ∧
      three.graph.nodes.map (fun n => n.plugin) = [none, none, some x, some y, some z]) ∧
    ((loadActivePlugins (fresh (withBypass threeSettings y true) [y, z, x])).isSome = true ∧
      threeBypassed.graph.nodes.map (fun n => n.plugin) =
        [none, none, some x, some y, some z]) ∧
    ((loadActivePlugins (fresh twoSettings [x, y])).isSome = true ∧
      two.graph.nodes.map (fun n => n.plugin) = [none, none, some x, some y]) ∧
    ((loadActivePlugins (fresh (withOrder noSettings x 100) [x])).isSome = true ∧
      one.graph.nodes.map (fun n => n.plugin) = [none, none, some x]) ∧
    ((loadActivePlugins (fresh (withBypass (withOrder noSettings x 100) x true) [x])).isSome
        = true ∧
      oneBypassed.graph.nodes.map (fun n => n.plugin) = [none, none, some x]) ∧
    ((loadActivePlugins (fresh caseSettings [x, a, A])).isSome = true ∧
      caseChain.graph.nodes.map (fun n => n.plugin) = [none, none, some x, some a, some A]) ∧
    ((loadActivePlugins (fresh pairSettings [a, A])).isSome = true ∧
      casePair.graph.nodes.map (fun n => n.plugin) = [none, none, some a, some A]) := by
  decide

/-- The rebuild ends the program on a default constructed description: with
two plugins added within the same second the scan returns one, and the
format manager has no instance for it. -/
theorem loadActivePlugins_tied :
    chainOf tied = [x, default] ∧ tied.formatManager default = false ∧
    (loadActivePlugins tied).isNone = true := by
  decide

/-- C6: a chain of one bypassed plugin. The rebuild adds the node of the
plugin and no connection at all: the input is not linked to the output. The
state is the one the bypass action leaves on a chain of one plugin. -/
theorem loadActivePlugins_allBypassed :
    chainOf oneBypassed = [x] ∧ flagsOf oneBypassed = [true] ∧
    (loadActivePlugins oneBypassed).map (fun im => im.graph.nodes) =
      some [⟨INPUT, none, []⟩, ⟨OUTPUT, none, []⟩, ⟨1, some x, []⟩] ∧
    (loadActivePlugins oneBypassed).map (fun im => im.graph.connections) = some [] ∧
    chainOf one = [x] ∧ flagsOf one = [false] ∧
    (bypassBranch one 0).map (fun im => (flagsOf im, im.graph.connections)) =
      some ([true], []) := by
  decide

/-- C9: two active plugins with the same stored order value. The time sorted
list holds the first of them and a default constructed description; the
second plugin is missing. -/
theorem getTimeSortedList_tied :
    storedOrder tied.settings x = 100 ∧ storedOrder tied.settings y = 100 ∧
    getTimeSortedList tied.settings tied.activePluginList = [x, default] ∧
    y ∉ getTimeSortedList tied.settings tied.activePluginList := by
  decide

/-- C10: two live instances, delete position 0. The state key of the
remaining plugin y ends up with the state of the instance of the deleted
plugin x (node 1), not with the state of its own instance (node 2). -/
theorem deleteBranch_state_shift :
    chainOf live = [x, y] ∧
    (getNodeForId live.graph 1).map (fun n => (n.plugin, n.state)) = some (some x, [1, 1]) ∧
    (getNodeForId live.graph 2).map (fun n => (n.plugin, n.state)) = some (some y, [2, 2]) ∧
    (deleteBranch live 0).map (fun im => im.settings (getKey "state" y)) =
      some (some (Value.base64 [1, 1])) := by
  decide

/-- C3: the chain x, a, A of a running application (keys pairwise distinct,
order values 1, 2, 3, every entry instantiated), move up on position 2. The
keys of a and A are equal ignoring case, so the loop takes a for the moved
entry as well: it leaves x = 2, a = 3, A = 2, the time sorted list of the
rebuild is x, a and a default constructed description, and the rebuild
dereferences the null instance of that description. The action does not
complete, so no move down can restore the chain. -/
theorem moveUpBranch_caseCollision :
    ((caseChain.activePluginList.map (getKey "order")).Nodup ∧
      (caseChain.activePluginList.map (storedOrder caseChain.settings)).Nodup ∧
      (∀ p ∈ caseChain.activePluginList, 0 < storedOrder caseChain.settings p) ∧
      1 ≤ 2 ∧ 2 < caseChain.activePluginList.length) ∧
    chainOf caseChain = [x, a, A] ∧
    (∀ p ∈ chainOf caseChain, caseChain.formatManager p = true) ∧
    equalsIgnoreCase (getKey "move" A) (getKey "move" a) = true ∧
    (moveUpLoop (chainOf caseChain) A 3 0 (savePluginStates caseChain).settings).map
        (fun s => ([x, a, A].map (storedOrder s), getTimeSortedList s [x, a, A])) =
      some ([2, 3, 2], [x, a, default]) ∧
    caseChain.formatManager default = false ∧
    (moveUpBranch caseChain 2).isNone = true := by
  decide

/-- C4: the chain a, A of a running application (keys pairwise distinct,
order values 1, 2, every entry instantiated), delete on position 1. The
search takes a, whose order key equals the key of A ignoring case, for the
type to remove: the keys of A are erased but a leaves the active list and A
stays in it. The time sorted list of the rebuild is one default constructed
description, and the rebuild dereferences its null instance: the action does
not complete and the deleted plugin is still active. -/
theorem deleteBranch_caseCollision :
    ((casePair.activePluginList.map (getKey "order")).Nodup ∧
      (casePair.activePluginList.map (storedOrder casePair.settings)).Nodup ∧
      (∀ p ∈ casePair.activePluginList, 0 < storedOrder casePair.settings p) ∧
      1 < casePair.activePluginList.length) ∧
    chainOf casePair = [a, A] ∧
    (∀ p ∈ chainOf casePair, casePair.formatManager p = true) ∧
    findTypeToRemove casePair.activePluginList (getKey "order" A) = some a ∧
    removeType casePair.activePluginList a = [A] ∧
    getTimeSortedList
      (removeValue (removeValue (deletePluginStates casePair).settings (getKey "order" A))
        (getKey "bypass" A))
      (removeType casePair.activePluginList a) = [default] ∧
    casePair.formatManager default = false ∧
    (deleteBranch casePair 1).isNone = true := by
  decide

/-- C1 on the sample chain y, z, x with order values 200, 300, 100. -/
theorem getTimeSortedList_sorted_witness :
    ((three.activePluginList.map (getKey "order")).Nodup ∧
      (three.activePluginList.map (storedOrder three.settings)).Nodup ∧
      (∀ p ∈ three.activePluginList,
        1 ≤ storedOrder three.settings p ∧ storedOrder three.settings p ≤ INT_MAX - 1)) ∧
    ((getTimeSortedList three.settings three.activePluginList).Perm three.activePluginList ∧
      (getTimeSortedList three.settings three.activePluginList).Nodup ∧
      (∀ p ∈ three.activePluginList,
        (getTimeSortedList three.settings three.activePluginList).count p = 1) ∧
      (getTimeSortedList three.settings three.activePluginList).Pairwise
        (fun p q => storedOrder three.settings p < storedOrder three.settings q)) :=
  ⟨by decide,
    getTimeSortedList_sorted three.settings three.activePluginList
      (by decide) (by decide) (by decide)⟩

/-- The scenario of the chain x, y, z with y bypassed: the connections are
input to x, x to z and z to output, on both channels. -/
theorem loadActivePlugins_scenario :
    chainOf threeBypassed = [x, y, z] ∧ flagsOf threeBypassed = [false, true, false] ∧
    (loadActivePlugins threeBypassed).map (fun im => im.graph.connections) =
      some [⟨INPUT, 0, 1, 0⟩, ⟨INPUT, 1, 1, 1⟩, ⟨1, 0, 3, 0⟩, ⟨1, 1, 3, 1⟩,
        ⟨3, 0, OUTPUT, 0⟩, ⟨3, 1, OUTPUT, 1⟩] := by
  decide

/-- C5 on the sample chain x, y, z, position 1. -/
theorem bypassBranch_frame_witness :
    (1 < (chainOf three).length ∧ ∀ p ∈ chainOf three, three.formatManager p = true) ∧
    ∃ im' plug, bypassBranch three 1 = some im' ∧ (chainOf three)[1]? = some plug ∧
      storedBypass im'.settings plug = !storedBypass three.settings plug ∧
      (three.settings (getKey "bypass" plug) = none → storedBypass im'.settings plug = true) ∧
      (∀ p, im'.settings (getKey "order" p) = three.settings (getKey "order" p)) ∧
      (∀ p, storedOrder im'.settings p = storedOrder three.settings p) ∧
      (∀ p, getKey "bypass" p ≠ getKey "bypass" plug →
        im'.settings (getKey "bypass" p) = three.settings (getKey "bypass" p)) ∧
      (∀ p, getKey "bypass" p ≠ getKey "bypass" plug →
        storedBypass im'.settings p = storedBypass three.settings p) ∧
      im'.activePluginList = three.activePluginList ∧
      chainOf im' = chainOf three :=
  ⟨by decide, bypassBranch_frame three 1 (by decide) (by decide)⟩

/-- The round trip on the sample chain x, y, z, position 1. -/
theorem moveUp_then_moveDown_sample :
    (CaseDistinct three.activePluginList ∧
      (three.activePluginList.map (storedOrder three.settings)).Nodup ∧
      (∀ p ∈ three.activePluginList,
        0 < storedOrder three.settings p ∧ storedOrder three.settings p ≤ INT_MAX) ∧
      (∀ p ∈ chainOf three, three.formatManager p = true) ∧
      1 ≤ 1 ∧ 1 < three.activePluginList.length) ∧
    ∃ im₁ im₂, moveUpBranch three 1 = some im₁ ∧
      (chainOf im₁)[1 - 1]? = (chainOf three)[1]? ∧
      moveDownBranch im₁ (1 - 1) = some im₂ ∧
      im₂.activePluginList = three.activePluginList ∧
      chainOf im₂ = chainOf three :=
  ⟨by decide,
    moveUp_then_moveDown_caseDistinct three 1 (by decide) (by decide) (by decide) (by decide)
      (by decide) (by decide)⟩

/-- The delete action on the sample chain x, y, z, position 1. -/
theorem deleteBranch_removes_sample :
    (CaseDistinct three.activePluginList ∧
      (three.activePluginList.map (storedOrder three.settings)).Nodup ∧
      (∀ p ∈ three.activePluginList,
        1 ≤ storedOrder three.settings p ∧ storedOrder three.settings p ≤ INT_MAX - 1) ∧
      (∀ p ∈ chainOf three, three.formatManager p = true) ∧
      1 < three.activePluginList.length) ∧
    ∃ im' plug, deleteBranch three 1 = some im' ∧ (chainOf three)[1]? = some plug ∧
      im'.settings (getKey "order" plug) = none ∧
      im'.settings (getKey "bypass" plug) = none ∧
      im'.settings (getKey "state" plug) = none ∧
      plug ∉ im'.activePluginList ∧
      (∀ p, p ∈ im'.activePluginList ↔ p ∈ three.activePluginList ∧ p ≠ plug) ∧
      chainOf im' = (chainOf three).eraseIdx 1 :=
  ⟨by decide,
    deleteBranch_removes_caseDistinct three 1 (by decide) (by decide) (by decide) (by decide)
      (by decide)⟩

/-- C7 as stated fails on the chain x, y with order values 100 and 200: after
the move up action on position 1 the moved plugin y holds 1, not the 100 of
its predecessor, and the predecessor x holds 2, not the 200 of y. -/
theorem moveUpBranch_counterexample :
    ((two.activePluginList.map (storedOrder two.settings)).Nodup ∧
      (∀ p ∈ two.activePluginList, 0 < storedOrder two.settings p) ∧
      1 ≤ 1 ∧ 1 < two.activePluginList.length) ∧
    chainOf two = [x, y] ∧
    storedOrder two.settings x = 100 ∧ storedOrder two.settings y = 200 ∧
    (moveUpBranch two 1).map (fun im => (storedOrder im.settings y, storedOrder im.settings x)) =
      some (1, 2) ∧
    ¬ ∃ im', moveUpBranch two 1 = some im' ∧
      storedOrder im'.settings y = storedOrder two.settings x ∧
      storedOrder im'.settings x = storedOrder two.settings y := by
  refine ⟨by decide, by decide, by decide, by decide, by decide, ?_⟩
  rintro ⟨im', h1, h2, h3⟩
  have h : (moveUpBranch two 1).map
      (fun im => (storedOrder im.settings y, storedOrder im.settings x)) =
      some (storedOrder two.settings x, storedOrder two.settings y) := by
    rw [h1, Option.map_some', h2, h3]
  revert h
  decide

/-- C7 (amended) on the sample chain x, y, z, position 2. -/
theorem moveUpBranch_renumbers_witness :
    (CaseDistinct three.activePluginList ∧
      (three.activePluginList.map (storedOrder three.settings)).Nodup ∧
      (∀ p ∈ three.activePluginList,
        0 < storedOrder three.settings p ∧ storedOrder three.settings p ≤ INT_MAX) ∧
      (∀ p ∈ chainOf three, three.formatManager p = true) ∧
      1 ≤ 2 ∧ 2 < three.activePluginList.length) ∧
    ∃ im', moveUpBranch three 2 = some im' ∧
      (∀ p, (chainOf three)[2]? = some p → storedOrder im'.settings p = ((2 : Nat) : Int)) ∧
      (∀ p, (chainOf three)[2 - 1]? = some p →
        storedOrder im'.settings p = ((2 : Nat) : Int) + 1) ∧
      (∀ (j : Nat) (p : PluginDescription), j ≠ 2 → j ≠ 2 - 1 → (chainOf three)[j]? = some p →
        storedOrder im'.settings p = (j : Int) + 1) ∧
      chainOf im' = swapAdjacent (chainOf three) 2 :=
  ⟨by decide,
    moveUpBranch_renumbers three 2 (by decide) (by decide) (by decide) (by decide) (by decide)
      (by decide)⟩

end LightHost
